import Mathlib

/-!
# Verification of the bablusheed packing engine

Shallow embedding of `src-tauri/src/commands/pack.rs` (the packing engine)
into Lean 4, together with proofs and refutations of the specification's
claims about it.

Modelling conventions:

* Rust `&str` values are modelled as Lean `String`; scanning code that walks
  UTF-8 bytes is modelled as walking the list of characters (`String.data`),
  which coincides with the byte-level behaviour on ASCII source text.
  `str::len` (a byte count) is modelled with `String.utf8ByteSize`.
* Rust `std::path::Path` helpers (`file_name`, `extension`) are modelled with
  POSIX semantics: the path separator is '/' only.
* `HashSet`/`HashMap` values whose final contents do not depend on insertion
  order are modelled as `Finset`/lookup functions over the insertion sequence;
  the one place where hash iteration order feeds an algorithm (the neighbour
  loop of the component DFS) is modelled by an explicit enumeration parameter,
  so that independence from that order can be stated and proved.
-/

namespace Pack

/-!
String primitives.  All string manipulation is implemented over the
character list `String.data` with structurally recursive functions, so that
every definition evaluates under the kernel (several core `String` functions
are compiled by well-founded recursion and do not). -/

/-- Rust `char::to_ascii_lowercase`: map the characters A-Z to a-z, leave
everything else unchanged. -/
def asciiLowerChar (c : Char) : Char :=
  if 'A' ≤ c ∧ c ≤ 'Z' then Char.ofNat (c.toNat + 32) else c

/-- Rust `str::to_ascii_lowercase`. -/
def asciiLower (s : String) : String :=
  ⟨s.data.map asciiLowerChar⟩

/-- Rust `str::starts_with` (UTF-8 byte prefix = character-list prefix). -/
def strStartsWith (s p : String) : Bool :=
  p.data.isPrefixOf s.data

/-- Rust `str::contains(pattern)` for a string pattern: substring search over
the character sequence. -/
def charsContains (pat : List Char) : List Char → Bool
  | [] => pat.isPrefixOf []
  | c :: rest => pat.isPrefixOf (c :: rest) || charsContains pat rest

/-- Rust `str::contains` on strings. -/
def strContains (s pat : String) : Bool :=
  charsContains pat.data s.data

/-- Rust `str::strip_prefix`: `some` of the remainder when `p` is a prefix. -/
def stripPfx (s p : String) : Option String :=
  if p.data.isPrefixOf s.data then some ⟨s.data.drop p.data.length⟩ else none

/-- Split a character list at every separator character satisfying `p`
(Rust `str::split(char)` semantics: empty runs kept). -/
def splitPred (p : Char → Bool) : List Char → List Char → List (List Char)
  | [], acc => [acc.reverse]
  | c :: rest, acc =>
    if p c then acc.reverse :: splitPred p rest []
    else splitPred p rest (c :: acc)

/-- The first-occurrence split of Rust `str::split_once`, over characters. -/
def splitOnceChars (pat : List Char) : List Char → Option (List Char × List Char)
  | [] => none
  | c :: rest =>
    if pat.isPrefixOf (c :: rest) then some ([], (c :: rest).drop pat.length)
    else (splitOnceChars pat rest).map (fun p2 => (c :: p2.1, p2.2))

/-- Rust `str::split_once(pat)` on strings. -/
def splitOnceStr (s pat : String) : Option (String × String) :=
  (splitOnceChars pat.data s.data).map (fun p2 => (⟨p2.1⟩, ⟨p2.2⟩))

/-- Rust `str::trim`: drop whitespace from both ends. -/
def strTrim (s : String) : String :=
  ⟨((s.data.dropWhile Char.isWhitespace).reverse.dropWhile Char.isWhitespace).reverse⟩

/-- Rust `str::replace(char, str)`: substitute a string for every occurrence
of one character. -/
def replaceCharStr (s : String) (c : Char) (rep : String) : String :=
  ⟨(s.data.map (fun x => if x = c then rep.data else [x])).flatten⟩

/-- Rust `str::split_whitespace`: maximal non-empty runs between whitespace. -/
def splitWhitespace (s : String) : List String :=
  ((splitPred Char.isWhitespace s.data []).map (fun l => (⟨l⟩ : String))).filter
    (fun t => t ≠ "")

/-- Rust `str::lines`: split on newline characters, dropping one final empty
line produced by a trailing newline, and stripping one trailing carriage
return per line. -/
def rustLines (s : String) : List String :=
  let ls := splitPred (fun c => c = '\n') s.data []
  let ls := if ls.getLast? = some [] then ls.dropLast else ls
  ls.map (fun l => if l.getLast? = some '\r' then (⟨l.dropLast⟩ : String) else ⟨l⟩)

/-- Rust `str::trim_end_matches(';')`: remove every trailing semicolon. -/
def trimEndSemis (s : String) : String :=
  ⟨(s.data.reverse.dropWhile (fun c => c = ';')).reverse⟩

/-- Join strings with a separator (Rust `Vec::join` / path reassembly). -/
def strIntercalate (sep : String) : List String → String
  | [] => ""
  | [x] => x
  | x :: y :: rest => x ++ sep ++ strIntercalate sep (y :: rest)

/-- Strict byte-lexicographic comparison of Rust `str::cmp`, over characters
(UTF-8 byte order coincides with code-point order). -/
def charsLt : List Char → List Char → Bool
  | [], [] => false
  | [], _ :: _ => true
  | _ :: _, [] => false
  | a :: as, b :: bs => if a < b then true else if b < a then false else charsLt as bs

/-- A stable insertion into a sorted list: `x` is placed before the first
element `y` with `le x y`. -/
def insSorted (le : Nat → Nat → Bool) (x : Nat) : List Nat → List Nat
  | [] => [x]
  | y :: t => if le x y then x :: y :: t else y :: insSorted le x t

/-- Stable insertion sort, the model of Rust's (stable) `sort_by` /
`sort_by_key`: an element moves before another only when strictly required
by the comparator. -/
def insSort (le : Nat → Nat → Bool) : List Nat → List Nat
  | [] => []
  | x :: t => insSorted le x (insSort le t)

/-- The comparator of the Kahn fallback sort: normalized path of `a` at most
that of `b` (Rust `sort_by` on `String::cmp`). -/
def pathLe (npath : Nat → String) (a b : Nat) : Bool :=
  !(charsLt (npath b).data (npath a).data)

/-- Lexicographic comparison of the `(bucket, normalizedPath)` priority keys,
the Rust `Ord` instance of `(u8, String)` used by `sort_by_key`. -/
def docKeyLe (x y : Nat × String) : Bool :=
  decide (x.1 < y.1) || (decide (x.1 = y.1) && !(charsLt y.2.data x.2.data))

/-- Comparator for the component sort: position of `a` at most position of
`b` (Rust `sort_by_key` on `usize`). -/
def posLe (posOf : Nat → Nat) (a b : Nat) : Bool :=
  decide (posOf a ≤ posOf b)

/-- `normalize_path` from pack.rs: replace backslashes by forward slashes,
then resolve empty, `.` and `..` segments against an implicit root. -/
def normalize_path (path : String) : String :=
  let replaced := replaceCharStr path '\\' "/"
  let parts := ((splitPred (fun c => c = '/') replaced.data []).map
      (fun l => (⟨l⟩ : String))).foldl
    (fun (parts : List String) part =>
      match part with
      | "" => parts
      | "." => parts
      | ".." => parts.dropLast
      | _ => parts ++ [part]) []
  strIntercalate "/" parts

/-- `parent_dir` from pack.rs: everything strictly before the last '/', or ""
when the path has no '/'. -/
def parent_dir (path : String) : String :=
  let cs := path.data
  match cs.reverse.findIdx? (fun c => c = '/') with
  | none => ""
  | some k => ⟨cs.take (cs.length - 1 - k)⟩

/-- The components of a path in the sense of Rust `std::path::Path` on POSIX:
split on '/', discarding empty and `.` segments. -/
def pathComponents (path : String) : List String :=
  ((splitPred (fun c => c = '/') path.data []).map (fun l => (⟨l⟩ : String))).filter
    (fun c => c ≠ "" ∧ c ≠ ".")

/-- Rust `Path::file_name` (POSIX): the last component, unless it is `..`. -/
def fileNameOpt (path : String) : Option String :=
  match (pathComponents path).getLast? with
  | some c => if c = ".." then none else some c
  | none => none

/-- Rust `Path::extension` (POSIX): the part of the file name after its last
dot, provided that dot is not the leading character of the file name. -/
def extensionOpt (path : String) : Option String :=
  match fileNameOpt path with
  | none => none
  | some name =>
    let cs := name.data
    match cs.reverse.findIdx? (fun c => c = '.') with
    | none => none
    | some k =>
      let i := cs.length - 1 - k
      if i = 0 then none else some ⟨cs.drop (i + 1)⟩

/-- `has_extension` from pack.rs. -/
def has_extension (path : String) : Bool :=
  (extensionOpt path).isSome

/-- `path_extension` from pack.rs: the extension lower-cased, or "". -/
def path_extension (path : String) : String :=
  asciiLower ((extensionOpt path).getD "")

/-- `file_basename` from pack.rs: the file name (falling back to the whole
path when `file_name` is `None`), lower-cased. -/
def file_basename (path : String) : String :=
  asciiLower ((fileNameOpt path).getD path)

/-- `is_doc_file` from pack.rs. -/
def is_doc_file (path : String) : Bool :=
  let ext := path_extension path
  ext = "md" || ext = "mdx" || ext = "txt" || ext = "rst" || ext = "adoc"

/-- `doc_priority` from pack.rs: the 4-bucket priority key used to re-sort
documentation files. -/
def doc_priority (path : String) : Nat × String :=
  let normalized := asciiLower (normalize_path path)
  let basename := file_basename path
  let bucket : Nat :=
    if strStartsWith basename "readme" then 0
    else if strStartsWith basename "overview" || strStartsWith basename "architecture"
        || strStartsWith basename "design" || strStartsWith basename "spec"
        || strStartsWith basename "contributing" then 1
    else if strStartsWith normalized "docs/" || strContains normalized "/docs/" then 2
    else 3
  (bucket, normalized)

/-- `estimate_tokens` from pack.rs: `(content.len() / 4).max(1)` where `len`
counts UTF-8 bytes. -/
def estimate_tokens (content : String) : Nat :=
  (content.utf8ByteSize / 4).max 1

/-- The scanner of `extract_quoted_segments` as a character state machine.
The first argument is `none` while outside a quoted segment, and
`some (q, acc)` while inside a segment opened by the quote character `q`,
with `acc` holding the segment's characters so far in reverse.  A backslash
inside a segment consumes the following character as well; both stay part of
the segment, exactly as in the Rust byte scan (which records the raw slice
between the quotes).  A segment left unterminated at end of input is
discarded, and the characters it consumed are not rescanned. -/
def scanQuotedAux : Option (Char × List Char) → List String → List Char → List String
  | _, out, [] => out
  | none, out, c :: rest =>
    if c = '\'' ∨ c = '"' then scanQuotedAux (some (c, [])) out rest
    else scanQuotedAux none out rest
  | some (q, acc), out, c :: rest =>
    if c = '\\' then
      match rest with
      | [] => out
      | d :: rest2 => scanQuotedAux (some (q, d :: c :: acc)) out rest2
    else if c = q then scanQuotedAux none (out ++ [String.mk acc.reverse]) rest
    else scanQuotedAux (some (q, c :: acc)) out rest

/-- `extract_quoted_segments` from pack.rs: every single- or double-quoted
literal of the line, honouring backslash escapes, dropping any segment whose
quote is unterminated at end of line. -/
def extract_quoted_segments (line : String) : List String :=
  scanQuotedAux none [] line.data

/-- Rust `str::contains(char)`. -/
def strContainsCh (s : String) (c : Char) : Bool :=
  s.data.contains c

/-- The apostrophe character (written by code point to keep sources plain). -/
def apostrophe : Char := Char.ofNat 39

/-- The per-line body of `extract_module_specifiers` from pack.rs, acting on
an already-trimmed line.  The Rust `HashSet<String>` is modelled as a
`Finset String`: every `insert` is a set insertion, so the final contents do
not depend on iteration or insertion order. -/
def lineSpecs (line : String) (specs0 : Finset String) : Finset String :=
  if line = "" || strStartsWith line "//" || strStartsWith line "#" || strStartsWith line "*" then
    specs0
  else
    -- JS/TS/Rust/Go style quoted imports: import/export/from/require/import()
    let specs1 :=
      if strStartsWith line "import " || strStartsWith line "export " || strContains line " from "
          || strContains line "require(" || strContains line "import(" || strStartsWith line "use " then
        (extract_quoted_segments line).foldl (fun s q => if q ≠ "" then insert q s else s) specs0
      else specs0
    -- Python: from foo.bar import baz
    let specs2 :=
      match stripPfx line "from " with
      | some rest =>
        match splitOnceStr rest " import " with
        | some (module, _) =>
          let module := replaceCharStr (strTrim module) '.' "/"
          if module ≠ "" then insert module specs1 else specs1
        | none => specs1
      | none => specs1
    -- Python: import foo.bar, baz
    let specs3 :=
      match stripPfx line "import " with
      | some rest =>
        if ¬ strContainsCh rest '"' ∧ ¬ strContainsCh rest apostrophe
            ∧ ¬ strContains rest " from " then
          ((splitPred (fun c => c = ',') rest.data []).map (fun l => (⟨l⟩ : String))).foldl
            (fun s item =>
            let module := replaceCharStr ((splitWhitespace (strTrim item)).headD "") '.' "/"
            if module ≠ "" then insert module s else s) specs2
        else specs2
      | none => specs2
    -- Rust: mod foo; / pub mod foo;
    match (stripPfx line "mod ") <|> (stripPfx line "pub mod ") with
    | some rest =>
      let module := strTrim (trimEndSemis rest)
      if module ≠ "" then insert ("./" ++ module) specs3 else specs3
    | none => specs3

/-- `extract_module_specifiers` from pack.rs, as the set of collected
specifiers (the Rust function materialises this `HashSet` into a `Vec` in
arbitrary hash order; every consumer treats it as a set). -/
def extract_module_specifiers (content : String) : Finset String :=
  (rustLines content).foldl (fun specs raw => lineSpecs (strTrim raw) specs) ∅

/-- The closed extension probe list of `resolve_module_specifier`. -/
def EXTENSIONS : List String :=
  ["ts", "tsx", "js", "jsx", "py", "rs", "go", "json", "md", "mdx"]

/-- `resolve_module_specifier` from pack.rs.  The known-path `HashMap` is
modelled as a lookup function `String → Option Nat`. -/
def resolve_module_specifier (specifier current_path : String)
    (path_to_idx : String → Option Nat) : Option Nat :=
  if specifier = "" || strStartsWith specifier "http://" || strStartsWith specifier "https://"
      || strStartsWith specifier "node:" then
    none
  else
    let base_candidates : List String :=
      (match stripPfx specifier "@/" with
       | some rest => [normalize_path ("src/" ++ rest)]
       | none => []) ++
      (if strStartsWith specifier "./" || strStartsWith specifier "../" then
        [normalize_path (parent_dir current_path ++ "/" ++ specifier)]
      else
        match stripPfx specifier "/" with
        | some rest => [normalize_path rest]
        | none => [normalize_path specifier])
    let expanded : List String := base_candidates.foldl (fun acc base =>
      if base = "" then acc
      else if has_extension base then acc ++ [base]
      else acc ++ [base] ++ EXTENSIONS.foldl (fun a ext =>
        a ++ [base ++ "." ++ ext, base ++ "/index." ++ ext]) []) []
    expanded.findSome? path_to_idx

/-- The `path_to_idx` map of `build_dependency_graph`/`build_related_adjacency`:
inserting `(path, idx)` for `idx = 0, 1, …` in order, a later duplicate path
overwrites an earlier one, so lookup returns the last index with that path. -/
def path_to_idx (paths : List String) (p : String) : Option Nat :=
  paths.enum.foldl (fun acc x => if x.2 = p then some x.1 else acc) none

/-- `FileContent` from models.rs: `path`, `content` and the optional
pre-computed `tokenCount` read by `pack_files`. -/
structure FileContent where
  path : String
  content : String
  tokenCount : Option Nat
deriving Repr, DecidableEq

/-- The `normalized_paths` vector built by both graph constructors. -/
def npathsOf (files : List FileContent) : List String :=
  files.map (fun f => normalize_path f.path)

/-- Normalized path of the file at index `i` (indices are always < length). -/
def npathOf (files : List FileContent) (i : Nat) : String :=
  (npathsOf files).getD i ""

/-- The content of the file at index `i`. -/
def contentOf (files : List FileContent) (i : Nat) : String :=
  ((files.getD i ⟨"", "", none⟩).content)

/-- The path-to-index lookup over the whole input set. -/
def lookupIdx (files : List FileContent) : String → Option Nat :=
  path_to_idx (npathsOf files)

/-- The set of dependencies of file `idx`: every index `dep ≠ idx` that some
specifier extracted from `idx`'s content resolves to.  In
`build_dependency_graph` each such resolution executes
`edges[dep].insert(idx)` (a set insertion) and bumps `indegree[idx]` exactly
when the insertion is fresh, so the loop's final state is exactly: `dep` has
dependent `idx` iff `dep ∈ deps idx`, and `indegree[idx] = (deps idx).card`. -/
def deps (files : List FileContent) (idx : Nat) : Finset Nat :=
  (Finset.range files.length).filter (fun dep => dep ≠ idx ∧
    ∃ spec ∈ extract_module_specifiers (contentOf files idx),
      resolve_module_specifier spec (npathOf files idx) (lookupIdx files) = some dep)

/-- `edges[i]` of `build_dependency_graph`: the dependents of `i`. -/
def edges (files : List FileContent) (i : Nat) : Finset Nat :=
  (Finset.range files.length).filter (fun j => i ∈ deps files j)

/-- The undirected related adjacency of `build_related_adjacency`: both
directions of every resolution are inserted, so `j` is adjacent to `i` iff
one of them resolves a specifier to the other. -/
def relatedAdj (files : List FileContent) (i : Nat) : Finset Nat :=
  (Finset.range files.length).filter (fun j => j ∈ deps files i ∨ i ∈ deps files j)

/-- State of the Kahn loop in `compute_dependency_order`: the emitted order,
the current indegrees, and the ready set.  The Rust ready set is a
`BTreeSet<(String, usize)>` whose members are always `(normalized_path[i], i)`;
since the first component is determined by the second, it is modelled as the
`Finset` of indices. -/
structure KahnState where
  order : List Nat
  indeg : Nat → Nat
  ready : Finset Nat

/-- Strict lexicographic order on the keys `(normalized_path[i], i)` of the
ready `BTreeSet`. -/
def keyLtIdx (npath : Nat → String) (i j : Nat) : Bool :=
  charsLt (npath i).data (npath j).data
    || (decide ((npath i).data = (npath j).data) && decide (i < j))

/-- `ready.pop_first()`: the index whose key `(normalized_path, index)` is
lexicographically smallest, or `none` when the set is empty.  The ready set
is always a subset of `0..n`, so the minimum is found by folding over that
range. -/
def popMin (npath : Nat → String) (n : Nat) (s : Finset Nat) : Option Nat :=
  ((List.range n).filter (fun i => decide (i ∈ s))).foldl
    (fun acc i =>
      match acc with
      | none => some i
      | some j => if keyLtIdx npath i j then some i else some j) none

/-- One iteration of the Kahn loop after popping index `i`: append `i` to the
order, decrement the indegree of each dependent of `i` (saturating, as in the
Rust `saturating_sub`), and insert every dependent whose indegree reached zero
into the ready set.  The Rust code walks the dependents in sorted path order;
since the updates are pointwise and the ready set is a set, that iteration
order does not affect the resulting state. -/
def kahnStep (files : List FileContent) (s : KahnState) (i : Nat) : KahnState :=
  let indeg2 := fun j => if j ∈ edges files i then s.indeg j - 1 else s.indeg j
  { order := s.order ++ [i]
    indeg := indeg2
    ready := (s.ready.erase i) ∪ ((edges files i).filter (fun j => indeg2 j = 0)) }

/-- The Kahn loop, with an explicit iteration bound.  The Rust loop runs
until the ready set is empty; `kahn_fuel_sufficient` below shows that from
the initial state the loop always empties the ready set within
`files.length` iterations, so running with that much fuel is a faithful
model of the unbounded loop. -/
def kahnLoop (files : List FileContent) : Nat → KahnState → KahnState
  | 0, s => s
  | fuel + 1, s =>
    match popMin (npathOf files) files.length s.ready with
    | none => s
    | some i => kahnLoop files fuel (kahnStep files s i)

/-- The initial Kahn state of `compute_dependency_order`. -/
def kahnInit (files : List FileContent) : KahnState :=
  { order := []
    indeg := fun j => (deps files j).card
    ready := (Finset.range files.length).filter (fun i => (deps files i).card = 0) }

/-- The state after the main Kahn loop. -/
def kahnFinal (files : List FileContent) : KahnState :=
  kahnLoop files files.length (kahnInit files)

/-- `compute_dependency_order` from pack.rs: the main Kahn loop's order,
then (cycles fallback) the unprocessed indices sorted by normalized path. -/
def compute_dependency_order (files : List FileContent) : List Nat :=
  let n := files.length
  if n ≤ 1 then List.range n
  else
    let s := kahnFinal files
    let remaining := (List.range n).filter (fun idx => ¬ idx ∈ s.order)
    s.order ++ insSort (pathLe (npathOf files)) remaining

/-- The path of the file at index `i`. -/
def pathOfIdx (files : List FileContent) (i : Nat) : String :=
  ((files.getD i ⟨"", "", none⟩).path)

/-- `split_docs_and_code` from pack.rs: split the ordered indices into
documentation and code subsequences (both keeping their relative order), then
re-sort the documentation by the `doc_priority` key, compared
lexicographically as the Rust tuple ordering does. -/
def split_docs_and_code (ordered_indices : List Nat) (files : List FileContent) :
    List Nat × List Nat :=
  let docs := ordered_indices.filter (fun idx => is_doc_file (pathOfIdx files idx))
  let code := ordered_indices.filter (fun idx => ¬ is_doc_file (pathOfIdx files idx))
  (insSort (fun a b =>
      docKeyLe (doc_priority (pathOfIdx files a)) (doc_priority (pathOfIdx files b))) docs,
   code)

/-- The walking loop of `distribute_files`: push the current index into the
current bin, add its weight to the running sum, and advance to the next bin
once the running sum reaches the boundary target and enough files remain for
the remaining bins. -/
def distLoop (w : Nat → Nat) (total pc n : Nat) :
    List Nat → Nat → Nat → Nat → List (List Nat) → List (List Nat)
  | [], _, _, _, bins => bins
  | idx :: rest, position, cum, cur, bins =>
    let bins2 := bins.set cur (bins.getD cur [] ++ [idx])
    let cum2 := cum + w idx
    if pc - 1 ≤ cur then
      distLoop w total pc n rest (position + 1) cum2 cur bins2
    else
      let boundary := (total * (cur + 1) + pc - 1) / pc
      if boundary ≤ cum2 ∧ pc - cur - 1 ≤ n - position - 1 then
        distLoop w total pc n rest (position + 1) cum2 (cur + 1) bins2
      else
        distLoop w total pc n rest (position + 1) cum2 cur bins2

/-- `distribute_files` from pack.rs.  The `token_counts` slice is modelled as
the weight function `w` (callers only ever index it by input file indices). -/
def distribute_files (ordered_indices : List Nat) (num_packs : Nat) (w : Nat → Nat) :
    List (List Nat) :=
  let n := ordered_indices.length
  if n = 0 then []
  else
    let pack_count := (min num_packs n).max 1
    if pack_count = 1 then [ordered_indices]
    else
      let total := (ordered_indices.map w).sum
      let bins := distLoop w total pack_count n ordered_indices 0 0 0
        (List.replicate pack_count [])
      bins.filter (fun b => !b.isEmpty)

/-- `distribute_with_doc_strategy` from pack.rs. -/
def distribute_with_doc_strategy (docs code : List Nat) (num_packs : Nat) (w : Nat → Nat) :
    List (List Nat) :=
  if docs.isEmpty || code.isEmpty || num_packs ≤ 1 then
    distribute_files (docs ++ code) num_packs w
  else
    let total := ((docs ++ code).map w).sum
    let docs_tokens := (docs.map w).sum
    if total = 0 then
      distribute_files (docs ++ code) num_packs w
    else
      -- docs_pack_count = ((docs_tokens * num_packs) + total/2) / total,
      -- clamped to [1, num_packs - 1]
      let dpc0 := (docs_tokens * num_packs + total / 2) / total
      let docs_pack_count := (dpc0.max 1).min (num_packs - 1)
      let code_pack_count := num_packs - docs_pack_count
      distribute_files docs docs_pack_count w ++ distribute_files code code_pack_count w

/-- The neighbour-scanning loop of `group_code_by_related_components`: walk a
neighbour list, pushing each allowed unvisited neighbour onto the stack,
into the visited set and onto the component. -/
def visitNeighbors (allowed : Finset Nat) :
    List Nat → List Nat × Finset Nat × List Nat → List Nat × Finset Nat × List Nat
  | [], st => st
  | nb :: ns, (stack, visited, comp) =>
    if nb ∈ allowed ∧ nb ∉ visited then
      visitNeighbors allowed ns (nb :: stack, insert nb visited, comp ++ [nb])
    else
      visitNeighbors allowed ns (stack, visited, comp)

theorem visitNeighbors_measure (allowed : Finset Nat) (ns : List Nat) :
    ∀ stack visited comp,
      (visitNeighbors allowed ns (stack, visited, comp)).1.length
        + (allowed \ (visitNeighbors allowed ns (stack, visited, comp)).2.1).card
      = stack.length + (allowed \ visited).card := by
  induction ns with
  | nil => intro stack visited comp; simp [visitNeighbors]
  | cons nb ns ih =>
    intro stack visited comp
    by_cases h : nb ∈ allowed ∧ nb ∉ visited
    · rw [visitNeighbors, if_pos h, ih]
      have hmem : nb ∈ allowed \ visited := Finset.mem_sdiff.mpr ⟨h.1, h.2⟩
      have hpos : 0 < (allowed \ visited).card := Finset.card_pos.mpr ⟨nb, hmem⟩
      have : allowed \ insert nb visited = (allowed \ visited).erase nb :=
        Finset.sdiff_insert allowed visited nb
      rw [this, Finset.card_erase_of_mem hmem]
      simp only [List.length_cons]
      omega
    · rw [visitNeighbors, if_neg h, ih]

/-- The DFS loop of `group_code_by_related_components`.  `enum node` is the
order in which the Rust `for &neighbor in &related[node]` loop happens to
iterate the neighbour hash set of `node`; it is a parameter so that
independence from that order can be proved.  The loop carries an explicit
iteration bound: each iteration strictly decreases
`stack.length + (allowed \ visited).card` (`visitNeighbors_measure`), so any
fuel of at least that measure makes the loop run until the stack is empty,
exactly like the unbounded Rust loop. -/
def dfsLoop (enum : Nat → List Nat) (allowed : Finset Nat) :
    Nat → List Nat → Finset Nat → List Nat → Finset Nat × List Nat
  | _, [], visited, comp => (visited, comp)
  | 0, _ :: _, visited, comp => (visited, comp)
  | fuel + 1, node :: stack, visited, comp =>
    let r := visitNeighbors allowed (enum node) (stack, visited, comp)
    dfsLoop enum allowed fuel r.1 r.2.1 r.2.2

/-- The `position` map of `group_code_by_related_components` (index of each
member of `code_order`, later duplicates overwriting earlier ones), with the
Rust `usize::MAX` fallback for absent keys. -/
def positionOf (code_order : List Nat) (x : Nat) : Nat :=
  code_order.enum.foldl (fun acc p => if p.2 = x then p.1 else acc) (2 ^ 64 - 1)

/-- The outer loop of `group_code_by_related_components`: start a DFS at each
not-yet-visited element of `code_order`, sort the collected component by
position in `code_order`, and append it to the grouped output. -/
def groupLoop (enum : Nat → List Nat) (allowed : Finset Nat) (posOf : Nat → Nat) :
    List Nat → Finset Nat → List Nat → List Nat
  | [], _, grouped => grouped
  | start :: rest, visited, grouped =>
    if start ∈ visited then
      groupLoop enum allowed posOf rest visited grouped
    else
      let r := dfsLoop enum allowed (allowed.card + 1) [start] (insert start visited) [start]
      groupLoop enum allowed posOf rest r.1
        (grouped ++ insSort (posLe posOf) r.2)

/-- `group_code_by_related_components` from pack.rs, parameterised by the
neighbour enumeration order (the hash iteration order of `related[node]`). -/
def group_code_by_related_components_enum (enum : Nat → List Nat)
    (code_order : List Nat) : List Nat :=
  if code_order.length ≤ 1 then code_order
  else groupLoop enum code_order.toFinset (positionOf code_order) code_order ∅ []

/-- A concrete enumeration of the related adjacency of `files`: neighbours in
increasing index order. -/
def canonicalEnum (files : List FileContent) : Nat → List Nat :=
  fun i => (List.range files.length).filter (fun j => decide (j ∈ relatedAdj files i))

/-- `group_code_by_related_components` with a fixed (increasing) neighbour
enumeration of the related adjacency of `files`; the C10 theorem shows any
enumeration of the same adjacency yields the same result. -/
def group_code_by_related_components (code_order : List Nat)
    (files : List FileContent) : List Nat :=
  group_code_by_related_components_enum (canonicalEnum files) code_order

/-- `format_file_header` from pack.rs.  Note the extension is used verbatim
(not lower-cased) for the language lookup. -/
def format_file_header (path content format : String) : String :=
  if format = "markdown" then
    let ext := (extensionOpt path).getD ""
    let lang :=
      if ext = "ts" || ext = "tsx" then "typescript"
      else if ext = "js" || ext = "jsx" then "javascript"
      else if ext = "rs" then "rust"
      else if ext = "py" then "python"
      else if ext = "go" then "go"
      else if ext = "md" then "markdown"
      else if ext = "json" then "json"
      else if ext = "css" then "css"
      else if ext = "html" then "html"
      else if ext = "toml" then "toml"
      else if ext = "yaml" || ext = "yml" then "yaml"
      else if ext = "sh" || ext = "bash" then "bash"
      else "text"
    "```" ++ lang ++ "\n// " ++ path ++ "\n" ++ content ++ "\n```"
  else
    "// " ++ path ++ "\n" ++ content

/-- `wrap_pack` from pack.rs (the identity on the joined content). -/
def wrap_pack (content : String) : String := content

/-- `PackRequest` from models.rs (the `llm_profile_id` field is never read by
the packing engine and is omitted). -/
structure PackRequest where
  files : List FileContent
  numPacks : Nat
  outputFormat : String
deriving Repr, DecidableEq

/-- `PackItem` from models.rs. -/
structure PackItem where
  index : Nat
  content : String
  estimatedTokens : Nat
  fileCount : Nat
  filePaths : List String
deriving Repr, DecidableEq

/-- `PackResponse` from models.rs. -/
structure PackResponse where
  packs : List PackItem
  totalTokens : Nat
deriving Repr, DecidableEq

/-- The `token_counts` vector of `pack_files`: the pre-computed count when
present, else the estimate from the content. -/
def token_counts (files : List FileContent) : Nat → Nat :=
  fun i => ((files.getD i ⟨"", "", none⟩).tokenCount).getD (estimate_tokens (contentOf files i))

/-- The `PackItem` built for one non-empty bin of `pack_files`: the loop
renders every member file, sums the member token counts and collects the
paths in one pass; the three `bin.map`s below are that same pass. -/
def mkPackItem (files : List FileContent) (format : String) (w : Nat → Nat)
    (i : Nat) (bin : List Nat) : PackItem :=
  { index := i
    content := wrap_pack (strIntercalate "\n\n"
      (bin.map (fun fi => format_file_header (pathOfIdx files fi) (contentOf files fi) format)))
    estimatedTokens := (bin.map w).sum
    fileCount := bin.length
    filePaths := bin.map (fun fi => pathOfIdx files fi) }

/-- The pack-building loop of `pack_files`: walk the enumerated bins,
skipping empty ones, pushing a `PackItem` for each non-empty bin. -/
def buildPacks (files : List FileContent) (format : String) (w : Nat → Nat) :
    List (Nat × List Nat) → List PackItem
  | [] => []
  | x :: rest =>
    if x.2.isEmpty then buildPacks files format w rest
    else mkPackItem files format w x.1 x.2 :: buildPacks files format w rest

/-- `pack_files` from pack.rs, parameterised by the neighbour enumeration
order used in the related-component DFS (the only place where hash iteration
order reaches an algorithm).  The function is total: the Rust command never
returns an error. -/
def pack_files_enum (enum : Nat → List Nat) (request : PackRequest) : PackResponse :=
  let files := request.files
  if files.isEmpty then
    { packs := [], totalTokens := 0 }
  else
    let num_packs := request.numPacks.max 1
    let format := request.outputFormat
    let w := token_counts files
    let total_tokens := ((List.range files.length).map w).sum
    -- 1) dependency-aware ordering
    let dependency_order := compute_dependency_order files
    -- 2) docs/code split, docs prioritized
    let split := split_docs_and_code dependency_order files
    let docs_order := split.1
    -- 3) group related code files
    let code_order := group_code_by_related_components_enum enum split.2
    -- 4) distribute
    let bins := distribute_with_doc_strategy docs_order code_order num_packs w
    { packs := buildPacks files format w bins.enum, totalTokens := total_tokens }

/-- `pack_files` with the canonical (sorted) neighbour enumeration of the
related adjacency of the request's files. -/
def pack_files (request : PackRequest) : PackResponse :=
  pack_files_enum (canonicalEnum request.files) request

/-! ## List utilities -/

theorem flatten_replicate_nil (k : Nat) : (List.replicate k ([] : List Nat)).flatten = [] := by
  induction k with
  | zero => rfl
  | succ k ih => simpa [List.replicate_succ] using ih

theorem flatten_filter_nonEmpty (bins : List (List Nat)) :
    (bins.filter (fun b => !b.isEmpty)).flatten = bins.flatten := by
  induction bins with
  | nil => rfl
  | cons b t ih =>
    cases b with
    | nil => simpa [List.filter_cons] using ih
    | cons x xs => simp [List.filter_cons, ih]

theorem getD_replicate_nil (k j : Nat) : (List.replicate k ([] : List Nat)).getD j [] = [] := by
  induction k generalizing j with
  | zero => simp [List.getD]
  | succ k ih =>
    cases j with
    | zero => simp [List.replicate_succ]
    | succ j => simpa [List.replicate_succ] using ih j

theorem getD_set_ne (bins : List (List Nat)) (i j : Nat) (v : List Nat) (h : i ≠ j) :
    (bins.set i v).getD j [] = bins.getD j [] := by
  simp [List.getD, List.getElem?_set_ne h]

theorem flatten_all_nil (u : List (List Nat)) (hu : ∀ j, u.getD j [] = []) :
    u.flatten = [] := by
  induction u with
  | nil => rfl
  | cons x xs ihx =>
    have hx : x = [] := hu 0
    have : xs.flatten = [] := ihx (fun j => hu (j + 1))
    simp [hx, this]

theorem set_push_flatten (bins : List (List Nat)) :
    ∀ (cur : Nat) (idx : Nat), cur < bins.length →
      (∀ j, cur < j → bins.getD j [] = []) →
      (bins.set cur (bins.getD cur [] ++ [idx])).flatten = bins.flatten ++ [idx] := by
  induction bins with
  | nil => intro cur idx h; simp at h
  | cons b t ih =>
    intro cur idx h htail
    cases cur with
    | zero =>
      have hrest : t.flatten = [] :=
        flatten_all_nil t (fun j => htail (j + 1) (Nat.succ_pos j))
      simp [List.getD, hrest]
    | succ cur =>
      have h1 : cur < t.length := by simpa using h
      have h2 : ∀ j, cur < j → t.getD j [] = [] := by
        intro j hj
        have := htail (j + 1) (by omega)
        simpa [List.getD] using this
      have hrec := ih cur idx h1 h2
      simp only [List.set_cons_succ, List.flatten_cons]
      rw [show ((b :: t).getD (cur + 1) [] : List Nat) = t.getD cur [] from rfl, hrec]
      simp

theorem distLoop_flatten (w : Nat → Nat) (total pc n : Nat) :
    ∀ (xs : List Nat) (pos cum cur : Nat) (bins : List (List Nat)),
      bins.length = pc → cur < pc → (∀ j, cur < j → bins.getD j [] = []) →
      (distLoop w total pc n xs pos cum cur bins).flatten = bins.flatten ++ xs := by
  intro xs
  induction xs with
  | nil => intro pos cum cur bins _ _ _; simp [distLoop]
  | cons idx rest ih =>
    intro pos cum cur bins hlen hcur htail
    have hcur' : cur < bins.length := hlen ▸ hcur
    have hflat2 : (bins.set cur (bins.getD cur [] ++ [idx])).flatten = bins.flatten ++ [idx] :=
      set_push_flatten bins cur idx hcur' htail
    have hlen2 : (bins.set cur (bins.getD cur [] ++ [idx])).length = pc := by
      simp [hlen]
    have htail2 : ∀ j, cur < j → (bins.set cur (bins.getD cur [] ++ [idx])).getD j [] = [] := by
      intro j hj
      rw [getD_set_ne _ _ _ _ (by omega)]
      exact htail j hj
    simp only [distLoop]
    split
    · rw [ih _ _ _ _ hlen2 hcur htail2, hflat2]; simp
    · split
      · rename_i hlt hcond
        have hcur1 : cur + 1 < pc := by omega
        have htail3 : ∀ j, cur + 1 < j → (bins.set cur (bins.getD cur [] ++ [idx])).getD j [] = [] :=
          fun j hj => htail2 j (by omega)
        rw [ih _ _ _ _ hlen2 hcur1 htail3, hflat2]; simp
      · rw [ih _ _ _ _ hlen2 hcur htail2, hflat2]; simp

theorem distLoop_length (w : Nat → Nat) (total pc n : Nat) :
    ∀ (xs : List Nat) (pos cum cur : Nat) (bins : List (List Nat)),
      (distLoop w total pc n xs pos cum cur bins).length = bins.length := by
  intro xs
  induction xs with
  | nil => intro pos cum cur bins; simp [distLoop]
  | cons idx rest ih =>
    intro pos cum cur bins
    simp only [distLoop]
    split
    · rw [ih]; simp
    · split
      · rw [ih]; simp
      · rw [ih]; simp

/-- The concatenation of all returned bins is exactly the input sequence:
`distribute_files` partitions its input into contiguous slices. -/
theorem distribute_files_flatten (xs : List Nat) (k : Nat) (w : Nat → Nat) :
    (distribute_files xs k w).flatten = xs := by
  simp only [distribute_files]
  split
  · rename_i h
    have : xs = [] := List.eq_nil_of_length_eq_zero h
    simp [this]
  · rename_i h
    split
    · simp
    · rename_i hpc
      have hn : 0 < xs.length := Nat.pos_of_ne_zero h
      have hpc1 : 1 ≤ (min k xs.length).max 1 := Nat.le_max_right _ 1
      rw [flatten_filter_nonEmpty,
        distLoop_flatten _ _ _ _ _ _ _ _ _ (by simp) (by omega)
          (fun j _ => getD_replicate_nil _ j),
        flatten_replicate_nil]
      simp

theorem distribute_files_length_le (xs : List Nat) (k : Nat) (w : Nat → Nat) (hk : 1 ≤ k) :
    (distribute_files xs k w).length ≤ k := by
  simp only [distribute_files]
  split
  · simp
  · rename_i h
    have hn : 0 < xs.length := Nat.pos_of_ne_zero h
    split
    · simpa using hk
    · have h1 := List.length_filter_le (fun (b : List Nat) => !b.isEmpty)
        (distLoop w ((xs.map w).sum) ((min k xs.length).max 1) xs.length xs 0 0 0
          (List.replicate ((min k xs.length).max 1) []))
      rw [distLoop_length] at h1
      simp only [List.length_replicate] at h1
      exact le_trans h1 (max_le (min_le_left k xs.length) hk)

theorem distribute_files_ne_nil (xs : List Nat) (k : Nat) (w : Nat → Nat) (h : xs ≠ []) :
    distribute_files xs k w ≠ [] := by
  intro hcon
  have := distribute_files_flatten xs k w
  rw [hcon] at this
  exact h this.symm

theorem distribute_files_mem_ne_nil (xs : List Nat) (k : Nat) (w : Nat → Nat)
    (b : List Nat) (hb : b ∈ distribute_files xs k w) : b ≠ [] := by
  simp only [distribute_files] at hb
  split at hb
  · simp at hb
  · rename_i h
    split at hb
    · rename_i hpc
      have hne : xs ≠ [] := fun hc => h (by simp [hc])
      simp at hb
      subst hb
      exact hne
    · have := List.of_mem_filter hb
      simpa [List.isEmpty_iff] using this

theorem set_append_len (A : List (List Nat)) (b v : List Nat) (tail : List (List Nat)) :
    (A ++ b :: tail).set A.length v = A ++ v :: tail := by
  induction A with
  | nil => rfl
  | cons a A ih => simpa using ih

theorem getD_append_len (A : List (List Nat)) (b : List Nat) (tail : List (List Nat)) :
    (A ++ b :: tail).getD A.length [] = b := by
  induction A with
  | nil => rfl
  | cons a A ih => simpa using ih

theorem sum_map_const_weight (w : Nat → Nat) (c : Nat) :
    ∀ (xs : List Nat), (∀ i ∈ xs, w i = c) → (xs.map w).sum = xs.length * c := by
  intro xs
  induction xs with
  | nil => intro _; simp
  | cons x t ih =>
    intro h
    have hx : w x = c := h x (List.mem_cons_self x t)
    have ht := ih (fun i hi => h i (List.mem_cons_of_mem x hi))
    simp [hx, ht, Nat.succ_mul, Nat.add_comm]

theorem distLoop_nil (w : Nat → Nat) (total pc n pos cum cur : Nat) (bins : List (List Nat)) :
    distLoop w total pc n [] pos cum cur bins = bins := rfl

theorem distLoop_cons (w : Nat → Nat) (total pc n idx pos cum cur : Nat)
    (rest : List Nat) (bins : List (List Nat)) :
    distLoop w total pc n (idx :: rest) pos cum cur bins =
      if pc - 1 ≤ cur then
        distLoop w total pc n rest (pos + 1) (cum + w idx) cur
          (bins.set cur (bins.getD cur [] ++ [idx]))
      else if (total * (cur + 1) + pc - 1) / pc ≤ cum + w idx ∧ pc - cur - 1 ≤ n - pos - 1 then
        distLoop w total pc n rest (pos + 1) (cum + w idx) (cur + 1)
          (bins.set cur (bins.getD cur [] ++ [idx]))
      else
        distLoop w total pc n rest (pos + 1) (cum + w idx) cur
          (bins.set cur (bins.getD cur [] ++ [idx])) := rfl

/-- With uniform weights the boundary/remaining-files test succeeds at each
step, so the walking loop produces one singleton bin per file. -/
theorem distLoop_singletons (w : Nat → Nat) (c n : Nat) (hn : 2 ≤ n) :
    ∀ (rest : List Nat) (p : Nat) (A : List (List Nat)),
      A.length = p → p + rest.length = n → (∀ i ∈ rest, w i = c) → rest ≠ [] →
      distLoop w (n * c) n n rest p (p * c) p (A ++ List.replicate (n - p) []) =
        A ++ rest.map (fun i => [i]) := by
  intro rest
  induction rest with
  | nil => intro p A _ _ _ hne; exact absurd rfl hne
  | cons idx rest ih =>
    intro p A hA hlen hw _
    have hwidx : w idx = c := hw idx (List.mem_cons_self idx rest)
    have hrep : n - p = (n - p - 1) + 1 := by
      simp only [List.length_cons] at hlen; omega
    have hbins2 : (A ++ List.replicate (n - p) []).set p
          ((A ++ List.replicate (n - p) []).getD p [] ++ [idx])
        = A ++ [idx] :: List.replicate (n - p - 1) [] := by
      rw [hrep, List.replicate_succ, ← hA, getD_append_len, set_append_len]
      simp
    cases rest with
    | nil =>
      -- last element: p = n - 1, the loop just fills the final bin
      simp only [List.length_cons, List.length_nil] at hlen
      rw [distLoop_cons, if_pos (show n - 1 ≤ p by omega), distLoop_nil, hbins2]
      have h0 : n - p - 1 = 0 := by omega
      rw [h0]
      simp
    | cons idx2 rest2 =>
      simp only [List.length_cons] at hlen
      have hcum : p * c + w idx = (p + 1) * c := by rw [hwidx]; ring
      have hb : (n * c * (p + 1) + n - 1) / n = (p + 1) * c := by
        have h1 : n * c * (p + 1) = n * ((p + 1) * c) := by ring
        calc (n * c * (p + 1) + n - 1) / n
            = (n * ((p + 1) * c) + (n - 1)) / n := by rw [← h1]; congr 1; omega
          _ = (p + 1) * c + (n - 1) / n := Nat.mul_add_div (by omega) _ _
          _ = (p + 1) * c := by rw [Nat.div_eq_of_lt (by omega)]; omega
      have hcond : (n * c * (p + 1) + n - 1) / n ≤ p * c + w idx ∧ n - p - 1 ≤ n - p - 1 :=
        ⟨by rw [hb, hcum], le_refl _⟩
      rw [distLoop_cons, if_neg (show ¬ n - 1 ≤ p by omega), if_pos hcond, hbins2, hcum]
      have hstep : A ++ [idx] :: List.replicate (n - p - 1) []
          = (A ++ [[idx]]) ++ List.replicate (n - (p + 1)) [] := by
        have h2 : n - p - 1 = n - (p + 1) := by omega
        simp [h2]
      rw [hstep]
      have hrec := ih (p + 1) (A ++ [[idx]]) (by simp [hA]) (by simp; omega)
        (fun i hi => hw i (List.mem_cons_of_mem idx hi)) (by simp)
      rw [hrec]
      simp

theorem map_singleton_filter (xs : List Nat) :
    (xs.map (fun i => [i])).filter (fun b => !b.isEmpty) = xs.map (fun i => [i]) := by
  induction xs with
  | nil => rfl
  | cons x t ih => simp [List.filter_cons, ih]

/-- Uniform weights: `distribute_files` with a requested pack count at least
the file count returns exactly one singleton pack per file, in order. -/
theorem distribute_files_singletons (xs : List Nat) (k : Nat) (w : Nat → Nat) (c : Nat)
    (hne : xs ≠ []) (hk : xs.length ≤ k) (hw : ∀ i ∈ xs, w i = c) :
    distribute_files xs k w = xs.map (fun i => [i]) := by
  have hn1 : 1 ≤ xs.length := List.length_pos.mpr hne
  simp only [distribute_files]
  rw [if_neg (by omega)]
  have hpc : (min k xs.length).max 1 = xs.length := by
    rw [min_eq_right hk]; exact Nat.max_eq_left hn1
  rw [hpc]
  by_cases h1 : xs.length = 1
  · rw [if_pos h1]
    match xs, h1 with
    | [x], _ => rfl
  · rw [if_neg h1]
    have hn2 : 2 ≤ xs.length := by omega
    rw [sum_map_const_weight w c xs hw]
    have := distLoop_singletons w c xs.length hn2 xs 0 [] rfl (by simp) hw hne
    simp only [Nat.zero_mul, Nat.sub_zero, List.nil_append] at this
    rw [this, map_singleton_filter]

/-! ## Sorting and comparator lemmas -/

theorem charsLt_asymm : ∀ (a b : List Char), charsLt a b = true → charsLt b a = false := by
  intro a
  induction a with
  | nil =>
    intro b h
    cases b with
    | nil => simp [charsLt] at h
    | cons y bs => simp [charsLt]
  | cons x as ih =>
    intro b h
    cases b with
    | nil => simp [charsLt] at h
    | cons y bs =>
      simp only [charsLt] at h ⊢
      by_cases h1 : x < y
      · rw [if_neg (lt_asymm h1), if_pos h1]
      · rw [if_neg h1] at h
        by_cases h2 : y < x
        · rw [if_pos h2] at h; exact absurd h (by simp)
        · rw [if_neg h2] at h
          rw [if_neg h2, if_neg h1]
          exact ih bs h

theorem charsLt_trans : ∀ (a b c : List Char),
    charsLt a b = true → charsLt b c = true → charsLt a c = true := by
  intro a
  induction a with
  | nil =>
    intro b c hab hbc
    cases c with
    | nil =>
      cases b with
      | nil => simp [charsLt] at hab
      | cons y bs => simp [charsLt] at hbc
    | cons z cs => simp [charsLt]
  | cons x as ih =>
    intro b c hab hbc
    cases b with
    | nil => simp [charsLt] at hab
    | cons y bs =>
      cases c with
      | nil => simp [charsLt] at hbc
      | cons z cs =>
        simp only [charsLt] at hab hbc ⊢
        by_cases hxy : x < y
        · by_cases hyz : y < z
          · rw [if_pos (lt_trans hxy hyz)]
          · rw [if_neg hyz] at hbc
            by_cases hzy : z < y
            · rw [if_pos hzy] at hbc; exact absurd hbc (by simp)
            · have hyz2 : y = z := le_antisymm (not_lt.mp hzy) (not_lt.mp hyz)
              rw [if_pos (hyz2 ▸ hxy)]
        · rw [if_neg hxy] at hab
          by_cases hyx : y < x
          · rw [if_pos hyx] at hab; exact absurd hab (by simp)
          · rw [if_neg hyx] at hab
            have hxy2 : x = y := le_antisymm (not_lt.mp hyx) (not_lt.mp hxy)
            subst hxy2
            by_cases hxz : x < z
            · rw [if_pos hxz]
            · rw [if_neg hxz] at hbc ⊢
              by_cases hzx : z < x
              · rw [if_pos hzx] at hbc; exact absurd hbc (by simp)
              · rw [if_neg hzx] at hbc ⊢
                exact ih bs cs hab hbc

theorem charsLt_connex : ∀ (a b : List Char),
    charsLt a b = false → charsLt b a = false → a = b := by
  intro a
  induction a with
  | nil =>
    intro b hab _
    cases b with
    | nil => rfl
    | cons y bs => simp [charsLt] at hab
  | cons x as ih =>
    intro b hab hba
    cases b with
    | nil => simp [charsLt] at hba
    | cons y bs =>
      simp only [charsLt] at hab hba
      by_cases hxy : x < y
      · rw [if_pos hxy] at hab; exact absurd hab (by simp)
      · by_cases hyx : y < x
        · rw [if_pos hyx] at hba; exact absurd hba (by simp)
        · rw [if_neg hxy, if_neg hyx] at hab
          rw [if_neg hyx, if_neg hxy] at hba
          have hx : x = y := le_antisymm (not_lt.mp hyx) (not_lt.mp hxy)
          rw [hx, ih bs hab hba]

/-- From `¬ b < a` and `¬ c < b` conclude `¬ c < a` (transitivity of the
induced non-strict order). -/
theorem charsLt_nlt_trans (a b c : List Char)
    (hba : charsLt b a = false) (hcb : charsLt c b = false) : charsLt c a = false := by
  by_contra hca
  have hca2 : charsLt c a = true := by
    cases h : charsLt c a with
    | false => exact absurd h hca
    | true => rfl
  by_cases hbc : charsLt b c = true
  · have := charsLt_trans b c a hbc hca2
    rw [this] at hba; exact absurd hba (by simp)
  · have hbc2 : charsLt b c = false := by
      cases h : charsLt b c with
      | false => rfl
      | true => exact absurd h hbc
    have : c = b := charsLt_connex c b hcb hbc2
    subst this
    rw [hca2] at hba; exact absurd hba (by simp)

theorem insSorted_perm (le : Nat → Nat → Bool) (x : Nat) :
    ∀ (l : List Nat), (insSorted le x l).Perm (x :: l) := by
  intro l
  induction l with
  | nil => simp [insSorted]
  | cons y t ih =>
    simp only [insSorted]
    split
    · exact List.Perm.refl _
    · exact (ih.cons y).trans (List.Perm.swap x y t)

theorem insSort_perm (le : Nat → Nat → Bool) :
    ∀ (l : List Nat), (insSort le l).Perm l := by
  intro l
  induction l with
  | nil => simp [insSort]
  | cons x t ih =>
    exact (insSorted_perm le x (insSort le t)).trans (ih.cons x)

theorem insSorted_pairwise (le : Nat → Nat → Bool)
    (htrans : ∀ a b c, le a b = true → le b c = true → le a c = true)
    (htot : ∀ a b, le a b = true ∨ le b a = true) (x : Nat) :
    ∀ (l : List Nat), l.Pairwise (fun a b => le a b = true) →
      (insSorted le x l).Pairwise (fun a b => le a b = true) := by
  intro l
  induction l with
  | nil => intro _; simp [insSorted]
  | cons y t ih =>
    intro hp
    rcases List.pairwise_cons.mp hp with ⟨hyt, hpt⟩
    simp only [insSorted]
    split
    · rename_i hxy
      refine List.pairwise_cons.mpr ⟨?_, hp⟩
      intro z hz
      rcases List.mem_cons.mp hz with rfl | hzt
      · exact hxy
      · exact htrans x y z hxy (hyt z hzt)
    · rename_i hxy
      have hyx : le y x = true := by
        rcases htot x y with h | h
        · exact absurd h hxy
        · exact h
      refine List.pairwise_cons.mpr ⟨?_, ih hpt⟩
      intro z hz
      have hz2 : z = x ∨ z ∈ t := by
        have := (insSorted_perm le x t).mem_iff.mp hz
        simpa using this
      rcases hz2 with rfl | hzt
      · exact hyx
      · exact hyt z hzt

theorem insSort_pairwise (le : Nat → Nat → Bool)
    (htrans : ∀ a b c, le a b = true → le b c = true → le a c = true)
    (htot : ∀ a b, le a b = true ∨ le b a = true) :
    ∀ (l : List Nat), (insSort le l).Pairwise (fun a b => le a b = true) := by
  intro l
  induction l with
  | nil => simp [insSort]
  | cons x t ih => exact insSorted_pairwise le htrans htot x (insSort le t) ih

theorem docKeyLe_trans (x y z : Nat × String)
    (hxy : docKeyLe x y = true) (hyz : docKeyLe y z = true) : docKeyLe x z = true := by
  simp only [docKeyLe, Bool.or_eq_true, Bool.and_eq_true, decide_eq_true_eq,
    Bool.not_eq_true'] at hxy hyz ⊢
  rcases hxy with h1 | ⟨h1, h1s⟩
  · rcases hyz with h2 | ⟨h2, _⟩
    · exact Or.inl (lt_trans h1 h2)
    · exact Or.inl (h2 ▸ h1)
  · rcases hyz with h2 | ⟨h2, h2s⟩
    · exact Or.inl (h1 ▸ h2)
    · exact Or.inr ⟨h1.trans h2, charsLt_nlt_trans x.2.data y.2.data z.2.data h1s h2s⟩

theorem docKeyLe_total (x y : Nat × String) :
    docKeyLe x y = true ∨ docKeyLe y x = true := by
  simp only [docKeyLe, Bool.or_eq_true, Bool.and_eq_true, decide_eq_true_eq,
    Bool.not_eq_true']
  rcases Nat.lt_trichotomy x.1 y.1 with h | h | h
  · exact Or.inl (Or.inl h)
  · by_cases hs : charsLt y.2.data x.2.data = true
    · have := charsLt_asymm _ _ hs
      exact Or.inr (Or.inr ⟨h.symm, this⟩)
    · have hs2 : charsLt y.2.data x.2.data = false := by
        cases hh : charsLt y.2.data x.2.data with
        | false => rfl
        | true => exact absurd hh hs
      exact Or.inl (Or.inr ⟨h, hs2⟩)
  · exact Or.inr (Or.inl h)

theorem pathLe_trans (npath : Nat → String) (a b c : Nat)
    (hab : pathLe npath a b = true) (hbc : pathLe npath b c = true) :
    pathLe npath a c = true := by
  simp only [pathLe, Bool.not_eq_true'] at hab hbc ⊢
  exact charsLt_nlt_trans (npath a).data (npath b).data (npath c).data hab hbc

theorem pathLe_total (npath : Nat → String) (a b : Nat) :
    pathLe npath a b = true ∨ pathLe npath b a = true := by
  simp only [pathLe, Bool.not_eq_true']
  by_cases h : charsLt (npath b).data (npath a).data = true
  · exact Or.inr (charsLt_asymm _ _ h)
  · exact Or.inl (by cases hh : charsLt (npath b).data (npath a).data with
      | false => rfl
      | true => exact absurd hh h)

theorem posLe_trans (posOf : Nat → Nat) (a b c : Nat)
    (hab : posLe posOf a b = true) (hbc : posLe posOf b c = true) :
    posLe posOf a c = true := by
  simp only [posLe, decide_eq_true_eq] at hab hbc ⊢
  omega

theorem posLe_total (posOf : Nat → Nat) (a b : Nat) :
    posLe posOf a b = true ∨ posLe posOf b a = true := by
  simp only [posLe, decide_eq_true_eq]
  omega

/-! ## Kahn loop invariants -/

theorem deps_subset_range (files : List FileContent) (j : Nat) :
    deps files j ⊆ Finset.range files.length := by
  intro d hd
  exact Finset.mem_of_mem_filter d hd

theorem deps_lt (files : List FileContent) {j d : Nat} (hd : d ∈ deps files j) :
    d < files.length :=
  Finset.mem_range.mp (deps_subset_range files j hd)

theorem deps_ne (files : List FileContent) {j d : Nat} (hd : d ∈ deps files j) : d ≠ j :=
  ((Finset.mem_filter.mp hd).2).1

theorem not_mem_deps_self (files : List FileContent) (j : Nat) : j ∉ deps files j :=
  fun h => deps_ne files h rfl

theorem mem_edges_iff (files : List FileContent) (i j : Nat) :
    j ∈ edges files i ↔ j < files.length ∧ i ∈ deps files j := by
  simp [edges, Finset.mem_filter, Finset.mem_range]

theorem popFold_mem (npath : Nat → String) :
    ∀ (l : List Nat) (acc : Option Nat) (i : Nat),
      l.foldl (fun acc i =>
        match acc with
        | none => some i
        | some j => if keyLtIdx npath i j then some i else some j) acc = some i →
      acc = some i ∨ i ∈ l := by
  intro l
  induction l with
  | nil => intro acc i h; exact Or.inl h
  | cons x t ih =>
    intro acc i h
    rcases ih _ i h with h2 | h2
    · match acc, h2 with
      | none, h2 =>
        simp only [] at h2
        exact Or.inr (by simp [← Option.some_inj.mp h2])
      | some j, h2 =>
        simp only [] at h2
        by_cases hk : keyLtIdx npath x j = true
        · rw [if_pos hk] at h2
          exact Or.inr (by simp [← Option.some_inj.mp h2])
        · rw [if_neg (by simpa using hk)] at h2
          exact Or.inl h2
    · exact Or.inr (List.mem_cons_of_mem x h2)

theorem popFold_ne_none (npath : Nat → String) :
    ∀ (l : List Nat) (acc : Option Nat),
      l.foldl (fun acc i =>
        match acc with
        | none => some i
        | some j => if keyLtIdx npath i j then some i else some j) acc = none →
      acc = none ∧ l = [] := by
  intro l
  induction l with
  | nil => intro acc h; exact ⟨h, rfl⟩
  | cons x t ih =>
    intro acc h
    rcases ih _ h with ⟨h2, _⟩
    exfalso
    match acc, h2 with
    | none, h2 => simp at h2
    | some j, h2 =>
      simp only [] at h2
      split at h2 <;> simp at h2

theorem popMin_mem (npath : Nat → String) (n : Nat) (s : Finset Nat) (i : Nat)
    (h : popMin npath n s = some i) : i ∈ s ∧ i < n := by
  rcases popFold_mem npath _ none i h with h2 | h2
  · simp at h2
  · have := List.mem_filter.mp h2
    exact ⟨by simpa using this.2, List.mem_range.mp this.1⟩

theorem popMin_eq_none (npath : Nat → String) (n : Nat) (s : Finset Nat)
    (hsub : ∀ i ∈ s, i < n) (h : popMin npath n s = none) : s = ∅ := by
  rcases popFold_ne_none npath _ none h with ⟨_, hl⟩
  rw [Finset.eq_empty_iff_forall_not_mem]
  intro i hi
  have : i ∈ (List.range n).filter (fun i => decide (i ∈ s)) :=
    List.mem_filter.mpr ⟨List.mem_range.mpr (hsub i hi), by simpa using hi⟩
  rw [hl] at this
  simp at this

/-- The loop invariant of the Kahn phase of `compute_dependency_order`. -/
structure KahnInv (files : List FileContent) (s : KahnState) : Prop where
  nodup : s.order.Nodup
  mem_lt : ∀ i ∈ s.order, i < files.length
  ready_lt : ∀ i ∈ s.ready, i < files.length
  ready_fresh : ∀ i ∈ s.ready, i ∉ s.order
  order_deps : ∀ (p : Nat) (hp : p < s.order.length),
    deps files (s.order.get ⟨p, hp⟩) ⊆ (s.order.take p).toFinset
  indeg_eq : ∀ j, j < files.length → j ∉ s.order →
    s.indeg j = (deps files j \ s.order.toFinset).card
  ready_iff : ∀ j, j < files.length → j ∉ s.order →
    (j ∈ s.ready ↔ deps files j ⊆ s.order.toFinset)

theorem KahnInv.order_mem_deps {files : List FileContent} {s : KahnState}
    (inv : KahnInv files s) {j : Nat} (hj : j ∈ s.order) :
    deps files j ⊆ s.order.toFinset := by
  rcases List.mem_iff_get.mp hj with ⟨p, rfl⟩
  intro x hx
  have hx2 := inv.order_deps p p.isLt hx
  exact List.mem_toFinset.mpr (List.take_subset _ _ (List.mem_toFinset.mp hx2))

theorem KahnInv.ready_deps {files : List FileContent} {s : KahnState}
    (inv : KahnInv files s) {i : Nat} (hi : i ∈ s.ready) :
    deps files i ⊆ s.order.toFinset :=
  (inv.ready_iff i (inv.ready_lt i hi) (inv.ready_fresh i hi)).mp hi

theorem kahnInit_inv (files : List FileContent) : KahnInv files (kahnInit files) := by
  constructor
  · exact List.nodup_nil
  · intro i hi; simp [kahnInit] at hi
  · intro i hi
    simp only [kahnInit, Finset.mem_filter, Finset.mem_range] at hi
    exact hi.1
  · intro i _; simp [kahnInit]
  · intro p hp; simp [kahnInit] at hp
  · intro j _ _
    simp [kahnInit]
  · intro j hj _
    simp only [kahnInit, Finset.mem_filter, Finset.mem_range]
    constructor
    · rintro ⟨_, hcard⟩
      have : deps files j = ∅ := Finset.card_eq_zero.mp hcard
      simp [this]
    · intro hsub
      refine ⟨hj, ?_⟩
      have : deps files j = ∅ := by
        rw [← Finset.subset_empty]
        simpa using hsub
      simp [this]

theorem kahnStep_inv (files : List FileContent) (s : KahnState) (i : Nat)
    (inv : KahnInv files s) (hi : i ∈ s.ready) :
    KahnInv files (kahnStep files s i) := by
  have hin : i < files.length := inv.ready_lt i hi
  have hfresh : i ∉ s.order := inv.ready_fresh i hi
  have hdepsi : deps files i ⊆ s.order.toFinset := inv.ready_deps hi
  have hF : (s.order ++ [i]).toFinset = insert i s.order.toFinset := by
    ext x; simp [or_comm]
  have hiF : i ∉ s.order.toFinset := fun h => hfresh (List.mem_toFinset.mp h)
  have hindeg2 : ∀ j, j < files.length → j ∉ s.order → j ≠ i →
      (if j ∈ edges files i then s.indeg j - 1 else s.indeg j)
        = (deps files j \ (s.order ++ [i]).toFinset).card := by
    intro j hj hjO hji
    rw [hF, Finset.sdiff_insert]
    by_cases hje : j ∈ edges files i
    · have hidep : i ∈ deps files j := ((mem_edges_iff files i j).mp hje).2
      have himem : i ∈ deps files j \ s.order.toFinset :=
        Finset.mem_sdiff.mpr ⟨hidep, hiF⟩
      rw [if_pos hje, inv.indeg_eq j hj hjO, Finset.card_erase_of_mem himem]
    · have hidep : i ∉ deps files j :=
        fun hcon => hje ((mem_edges_iff files i j).mpr ⟨hj, hcon⟩)
      have herase : (deps files j \ s.order.toFinset).erase i
          = deps files j \ s.order.toFinset :=
        Finset.erase_eq_of_not_mem (fun hcon => hidep (Finset.mem_sdiff.mp hcon).1)
      rw [if_neg hje, inv.indeg_eq j hj hjO, herase]
  constructor
  · -- nodup
    simp only [kahnStep]
    simp [List.nodup_append, inv.nodup, hfresh]
  · -- mem_lt
    intro j hj
    simp only [kahnStep, List.mem_append, List.mem_singleton] at hj
    rcases hj with hj | rfl
    · exact inv.mem_lt j hj
    · exact hin
  · -- ready_lt
    intro j hj
    simp only [kahnStep, Finset.mem_union] at hj
    rcases hj with hj | hj
    · exact inv.ready_lt j (Finset.mem_of_mem_erase hj)
    · have := Finset.mem_of_mem_filter j hj
      exact ((mem_edges_iff files i j).mp this).1
  · -- ready_fresh
    intro j hj
    simp only [kahnStep, Finset.mem_union] at hj
    simp only [kahnStep, List.mem_append, List.mem_singleton]
    rcases hj with hj | hj
    · have hne := Finset.ne_of_mem_erase hj
      have hjr := Finset.mem_of_mem_erase hj
      push_neg
      exact ⟨inv.ready_fresh j hjr, hne⟩
    · have hje := Finset.mem_of_mem_filter j hj
      have hidep : i ∈ deps files j := ((mem_edges_iff files i j).mp hje).2
      push_neg
      constructor
      · intro hjO
        exact hfresh (List.mem_toFinset.mp (inv.order_mem_deps hjO hidep))
      · intro hcon
        exact deps_ne files hidep (by rw [hcon])
  · -- order_deps
    intro p hp
    simp only [kahnStep, List.length_append, List.length_singleton] at hp
    simp only [kahnStep]
    by_cases hplt : p < s.order.length
    · rw [List.get_append _ hplt, List.take_append_of_le_length (Nat.le_of_lt hplt)]
      exact inv.order_deps p hplt
    · have hpeq : p = s.order.length := by omega
      subst hpeq
      have hget : (s.order ++ [i]).get ⟨s.order.length, by simp⟩ = i := by
        simp
      rw [hget, List.take_append_of_le_length (le_refl _), List.take_length]
      exact hdepsi
  · -- indeg_eq
    intro j hj hjO
    simp only [kahnStep, List.mem_append, List.mem_singleton] at hjO
    push_neg at hjO
    simp only [kahnStep]
    exact hindeg2 j hj hjO.1 hjO.2
  · -- ready_iff
    intro j hj hjO
    simp only [kahnStep, List.mem_append, List.mem_singleton] at hjO
    push_neg at hjO
    simp only [kahnStep, Finset.mem_union]
    constructor
    · intro hjr
      rcases hjr with hjr | hjr
      · have hsub := (inv.ready_iff j hj hjO.1).mp (Finset.mem_of_mem_erase hjr)
        rw [hF]
        exact hsub.trans (Finset.subset_insert i _)
      · rcases Finset.mem_filter.mp hjr with ⟨hje, hzero⟩
        have := hindeg2 j hj hjO.1 hjO.2
        rw [this] at hzero
        exact Finset.sdiff_eq_empty_iff_subset.mp (Finset.card_eq_zero.mp hzero)
    · intro hsub
      by_cases hidep : i ∈ deps files j
      · right
        refine Finset.mem_filter.mpr ⟨(mem_edges_iff files i j).mpr ⟨hj, hidep⟩, ?_⟩
        rw [hindeg2 j hj hjO.1 hjO.2]
        rw [Finset.card_eq_zero, Finset.sdiff_eq_empty_iff_subset]
        exact hsub
      · left
        have hsub2 : deps files j ⊆ s.order.toFinset := by
          intro x hx
          have := hsub hx
          rw [hF] at this
          rcases Finset.mem_insert.mp this with rfl | hxF
          · exact absurd hx hidep
          · exact hxF
        exact Finset.mem_erase.mpr
          ⟨hjO.2, (inv.ready_iff j hj hjO.1).mpr hsub2⟩

theorem kahnLoop_props (files : List FileContent) :
    ∀ (fuel : Nat) (s : KahnState), KahnInv files s →
      KahnInv files (kahnLoop files fuel s) ∧
      s.order <+: (kahnLoop files fuel s).order ∧
      (files.length ≤ fuel + s.order.length → (kahnLoop files fuel s).ready = ∅) := by
  intro fuel
  induction fuel with
  | zero =>
    intro s inv
    refine ⟨inv, List.prefix_refl _, ?_⟩
    intro hle
    simp only [kahnLoop]
    rw [Finset.eq_empty_iff_forall_not_mem]
    intro j hj
    have hjn := inv.ready_lt j hj
    have hjf := inv.ready_fresh j hj
    have hcover : s.order.toFinset = Finset.range files.length := by
      apply Finset.eq_of_subset_of_card_le
      · intro x hx
        exact Finset.mem_range.mpr (inv.mem_lt x (List.mem_toFinset.mp hx))
      · rw [List.toFinset_card_of_nodup inv.nodup, Finset.card_range]
        omega
    have : j ∈ s.order.toFinset := by
      rw [hcover]; exact Finset.mem_range.mpr hjn
    exact hjf (List.mem_toFinset.mp this)
  | succ fuel ih =>
    intro s inv
    simp only [kahnLoop]
    cases hpop : popMin (npathOf files) files.length s.ready with
    | none =>
      refine ⟨inv, List.prefix_refl _, ?_⟩
      intro _
      exact popMin_eq_none _ _ _ inv.ready_lt hpop
    | some i =>
      have hmem := (popMin_mem _ _ _ _ hpop).1
      have inv2 := kahnStep_inv files s i inv hmem
      rcases ih (kahnStep files s i) inv2 with ⟨ha, hb, hc⟩
      refine ⟨ha, ?_, ?_⟩
      · exact (List.prefix_append s.order [i]).trans hb
      · intro hle
        apply hc
        simp only [kahnStep, List.length_append, List.length_singleton]
        omega

theorem kahnFinal_facts (files : List FileContent) :
    KahnInv files (kahnFinal files) ∧ (kahnFinal files).ready = ∅ := by
  rcases kahnLoop_props files files.length (kahnInit files) (kahnInit_inv files) with
    ⟨ha, -, hc⟩
  exact ⟨ha, hc (by simp [kahnInit])⟩

theorem compute_dependency_order_perm (files : List FileContent) :
    (compute_dependency_order files).Perm (List.range files.length) := by
  simp only [compute_dependency_order]
  split
  · exact List.Perm.refl _
  · rcases kahnFinal_facts files with ⟨inv, -⟩
    have h1 : (kahnFinal files).order.Perm
        ((List.range files.length).filter (fun idx => decide (idx ∈ (kahnFinal files).order))) := by
      apply (List.perm_ext_iff_of_nodup inv.nodup (List.Nodup.filter _ (List.nodup_range _))).mpr
      intro a
      simp only [List.mem_filter, List.mem_range, decide_eq_true_eq]
      constructor
      · intro ha; exact ⟨inv.mem_lt a ha, ha⟩
      · intro ha; exact ha.2
    have h2 := insSort_perm (pathLe (npathOf files))
      ((List.range files.length).filter (fun idx => ¬ idx ∈ (kahnFinal files).order))
    have h3 : ((List.range files.length).filter (fun idx => ¬ idx ∈ (kahnFinal files).order))
        = (List.range files.length).filter
            (fun idx => !(decide (idx ∈ (kahnFinal files).order))) := by
      apply List.filter_congr
      intro x _
      simp
    have h4 := List.filter_append_perm
      (fun idx => decide (idx ∈ (kahnFinal files).order)) (List.range files.length)
    rw [← h3] at h4
    exact (List.Perm.append h1 h2).trans h4

/-! ## Claim C4 -/

/-- The dependency relation of the graph: `d` is a dependency of `j`. -/
def DepRel (files : List FileContent) (d j : Nat) : Prop := d ∈ deps files j

theorem exists_transGen_cycle (S : Finset Nat) (hne : S.Nonempty) (R : Nat → Nat → Prop)
    (h : ∀ j ∈ S, ∃ d ∈ S, R d j) : ∃ x, Relation.TransGen R x x := by
  classical
  obtain ⟨j0, hj0⟩ := hne
  let f : Nat → Nat := fun j => if hj : j ∈ S then (h j hj).choose else j
  have hf : ∀ j (hj : j ∈ S), f j ∈ S ∧ R (f j) j := by
    intro j hj
    have h1 := (h j hj).choose_spec
    simp only [f, dif_pos hj]
    exact ⟨h1.1, h1.2⟩
  let g : Nat → Nat := fun k => f^[k] j0
  have hgS : ∀ k, g k ∈ S := by
    intro k
    induction k with
    | zero => exact hj0
    | succ k ih =>
      have := (hf (g k) ih).1
      simpa [g, Function.iterate_succ_apply'] using this
  have hstep : ∀ k, R (g (k + 1)) (g k) := by
    intro k
    have := (hf (g k) (hgS k)).2
    simpa [g, Function.iterate_succ_apply'] using this
  have hchain : ∀ a b, a < b → Relation.TransGen R (g b) (g a) := by
    intro a b
    induction b with
    | zero => intro h0; omega
    | succ b ihb =>
      intro hab
      by_cases hba : a = b
      · subst hba
        exact Relation.TransGen.single (hstep a)
      · have hlt : a < b := by omega
        exact (Relation.TransGen.single (hstep b)).trans (ihb hlt)
  have hmap : ∀ k ∈ Finset.range (S.card + 1), g k ∈ S := fun k _ => hgS k
  obtain ⟨a, ha, b, hb, hab, heq⟩ :=
    Finset.exists_ne_map_eq_of_card_lt_of_maps_to (by simp) hmap
  rcases Nat.lt_or_ge a b with hlt | hge
  · refine ⟨g b, ?_⟩
    have hc := hchain a b hlt
    rwa [heq] at hc
  · have hlt : b < a := by omega
    refine ⟨g a, ?_⟩
    have hc := hchain b a hlt
    rwa [← heq] at hc

/-- On an acyclic dependency graph the main Kahn loop emits every index. -/
theorem kahn_complete (files : List FileContent)
    (hacyc : ∀ x, ¬ Relation.TransGen (DepRel files) x x) :
    ∀ j, j < files.length → j ∈ (kahnFinal files).order := by
  by_contra hcon
  push_neg at hcon
  obtain ⟨j0, hj0n, hj0⟩ := hcon
  rcases kahnFinal_facts files with ⟨inv, hready⟩
  have hne : ((Finset.range files.length).filter
      (fun j => ¬ j ∈ (kahnFinal files).order)).Nonempty :=
    ⟨j0, Finset.mem_filter.mpr ⟨Finset.mem_range.mpr hj0n, hj0⟩⟩
  have hstep : ∀ j ∈ (Finset.range files.length).filter
      (fun j => ¬ j ∈ (kahnFinal files).order),
      ∃ d ∈ (Finset.range files.length).filter
        (fun j => ¬ j ∈ (kahnFinal files).order), DepRel files d j := by
    intro j hj
    rcases Finset.mem_filter.mp hj with ⟨hjr, hjo⟩
    have hnotready : j ∉ (kahnFinal files).ready := by rw [hready]; simp
    have hnsub : ¬ deps files j ⊆ (kahnFinal files).order.toFinset := by
      intro hsub
      exact hnotready ((inv.ready_iff j (Finset.mem_range.mp hjr) hjo).mpr hsub)
    rcases Finset.not_subset.mp hnsub with ⟨d, hd, hdno⟩
    refine ⟨d, ?_, hd⟩
    refine Finset.mem_filter.mpr ⟨Finset.mem_range.mpr (deps_lt files hd), ?_⟩
    intro hdo
    exact hdno (List.mem_toFinset.mpr hdo)
  obtain ⟨x, hx⟩ := exists_transGen_cycle _ hne (DepRel files) hstep
  exact hacyc x hx

theorem indexOf_lt_of_mem_take :
    ∀ (l : List Nat) (k a : Nat), a ∈ l.take k → List.indexOf a l < k := by
  intro l
  induction l with
  | nil => intro k a h; simp at h
  | cons x t ih =>
    intro k a h
    cases k with
    | zero => simp at h
    | succ k =>
      simp only [List.take_succ_cons] at h
      by_cases hax : a = x
      · subst hax
        simp [List.indexOf_cons_self]
      · rcases List.mem_cons.mp h with hcon | h2
        · exact absurd hcon hax
        · rw [List.indexOf_cons_ne _ (by simp; exact fun hc => hax hc.symm)]
          exact Nat.succ_lt_succ (ih k a h2)

/-- C4, amended: provided the dependency graph is ACYCLIC, whenever a
specifier of file `A` resolves to a distinct file `B` (i.e. `B ∈ deps A`),
`B` precedes `A` in the computed dependency order.  (Without the acyclicity
hypothesis the claim is refuted by `claim_C4_counterexample`: in a two-file
cycle one of the two required precedences must fail.) -/
theorem claim_C4 (files : List FileContent)
    (hacyc : ∀ x, ¬ Relation.TransGen (DepRel files) x x)
    (A B : Nat) (hA : A < files.length) (hAB : B ∈ deps files A) :
    List.indexOf B (compute_dependency_order files) <
      List.indexOf A (compute_dependency_order files) := by
  have hB : B < files.length := deps_lt files hAB
  have hBA : B ≠ A := deps_ne files hAB
  have hn2 : 2 ≤ files.length := by omega
  rcases kahnFinal_facts files with ⟨inv, hready⟩
  have hAin := kahn_complete files hacyc A hA
  have hrem : ((List.range files.length).filter
      (fun idx => ¬ idx ∈ (kahnFinal files).order)) = [] := by
    apply List.filter_eq_nil_iff.mpr
    intro a ha
    simp [kahn_complete files hacyc a (List.mem_range.mp ha)]
  have horder : compute_dependency_order files = (kahnFinal files).order := by
    simp only [compute_dependency_order]
    rw [if_neg (by omega), hrem]
    simp [insSort]
  rw [horder]
  have hidxA : List.indexOf A (kahnFinal files).order < (kahnFinal files).order.length :=
    List.indexOf_lt_length.mpr hAin
  have hgetA : (kahnFinal files).order.get ⟨List.indexOf A (kahnFinal files).order, hidxA⟩ = A := by
    simpa using List.getElem_indexOf hidxA
  have hsub := inv.order_deps (List.indexOf A (kahnFinal files).order) hidxA
  rw [hgetA] at hsub
  have hBtake : B ∈ (kahnFinal files).order.take (List.indexOf A (kahnFinal files).order) :=
    List.mem_toFinset.mp (hsub hAB)
  exact indexOf_lt_of_mem_take _ _ B hBtake

/-- The two-file import cycle used to refute the unamended C4. -/
def filesC4 : List FileContent :=
  [⟨"a.ts", "import x from \"./b\"\n", none⟩,
   ⟨"b.ts", "import y from \"./a\"\n", none⟩]

/-- C4, counterexample: in the two-file cycle `a.ts ↔ b.ts`, file 0 yields a
specifier resolving to file 1, yet the computed order is `[0, 1]` (the cycle
fallback, sorted by path), so file 1 does NOT precede file 0. -/
theorem claim_C4_counterexample :
    (∃ spec ∈ extract_module_specifiers (contentOf filesC4 0),
      resolve_module_specifier spec (npathOf filesC4 0) (lookupIdx filesC4) = some 1) ∧
    compute_dependency_order filesC4 = [0, 1] ∧
    ¬ (List.indexOf 1 (compute_dependency_order filesC4) <
        List.indexOf 0 (compute_dependency_order filesC4)) := by
  refine ⟨by decide, by decide, by decide⟩

/-- The acyclic two-file input for the C4 witness. -/
def filesC4W : List FileContent :=
  [⟨"a.ts", "import x from \"./b\"\n", none⟩,
   ⟨"b.ts", "const y = 1\n", none⟩]

theorem claim_C4_witness :
    List.indexOf 1 (compute_dependency_order filesC4W) <
      List.indexOf 0 (compute_dependency_order filesC4W) := by
  have hchar : ∀ d j, DepRel filesC4W d j → d = 1 ∧ j = 0 := by
    intro d j hdj
    have hj2 : j < 2 := by
      by_contra hj2
      push_neg at hj2
      have hcontent : contentOf filesC4W j = "" := by
        simp only [contentOf, filesC4W]
        rw [List.getD_eq_default]
        simp
        omega
      have hdj2 : d ∈ deps filesC4W j := hdj
      simp only [deps, hcontent, Finset.mem_filter] at hdj2
      have : extract_module_specifiers "" = ∅ := by decide
      rw [this] at hdj2
      simp at hdj2
    interval_cases j
    · have : deps filesC4W 0 = {1} := by decide
      rw [DepRel, this] at hdj
      simp at hdj
      exact ⟨hdj, rfl⟩
    · have : deps filesC4W 1 = ∅ := by decide
      rw [DepRel, this] at hdj
      simp at hdj
  have hacyc : ∀ x, ¬ Relation.TransGen (DepRel filesC4W) x x := by
    have htg : ∀ a b, Relation.TransGen (DepRel filesC4W) a b → a = 1 ∧ b = 0 := by
      intro a b h
      induction h with
      | single h1 => exact hchar _ _ h1
      | tail _ h2 ih =>
        rcases hchar _ _ h2 with ⟨h3, h4⟩
        rcases ih with ⟨h5, h6⟩
        omega
    intro x hx
    rcases htg x x hx with ⟨h1, h2⟩
    omega
  exact claim_C4 filesC4W hacyc 0 1 (by decide) (by decide)

/-! ## Claim C5 -/

/-- C5: the ordering computation always terminates with a total order: the
computed order is a permutation of `0..n`, the main loop runs until its ready
set is exhausted, and the computed order is exactly the main Kahn-loop order
followed by a tail that is pairwise sorted by normalized path and consists of
exactly the indices the main loop did not emit. -/
theorem claim_C5 (files : List FileContent) :
    (compute_dependency_order files).Perm (List.range files.length) ∧
    (kahnFinal files).ready = ∅ ∧
    ∃ unprocessed,
      compute_dependency_order files = (kahnFinal files).order ++ unprocessed ∧
      List.Pairwise (fun a b => pathLe (npathOf files) a b = true) unprocessed ∧
      unprocessed.Perm ((List.range files.length).filter
        (fun idx => ¬ idx ∈ (kahnFinal files).order)) := by
  refine ⟨compute_dependency_order_perm files, (kahnFinal_facts files).2, ?_⟩
  refine ⟨insSort (pathLe (npathOf files)) ((List.range files.length).filter
      (fun idx => ¬ idx ∈ (kahnFinal files).order)), ?_,
    insSort_pairwise (pathLe (npathOf files))
      (fun a b c => pathLe_trans (npathOf files) a b c)
      (fun a b => pathLe_total (npathOf files) a b) _,
    insSort_perm _ _⟩
  simp only [compute_dependency_order]
  split
  · rename_i h
    have hacyc : ∀ x, ¬ Relation.TransGen (DepRel files) x x := by
      intro x htg
      cases htg with
      | single h1 => exact not_mem_deps_self files x h1
      | tail htg2 hstep =>
        have hb := deps_lt files hstep
        cases htg2 with
        | single h2 =>
          have hx := deps_lt files h2
          have hne := deps_ne files h2
          omega
        | tail _ hstep2 =>
          have hc := deps_lt files hstep2
          have hne := deps_ne files hstep2
          omega
    have hcomp := kahn_complete files hacyc
    rcases kahnFinal_facts files with ⟨inv, -⟩
    have hperm : (kahnFinal files).order.Perm (List.range files.length) := by
      apply (List.perm_ext_iff_of_nodup inv.nodup (List.nodup_range _)).mpr
      intro a
      simp only [List.mem_range]
      exact ⟨fun ha => inv.mem_lt a ha, fun ha => hcomp a ha⟩
    have horder : (kahnFinal files).order = List.range files.length := by
      rcases Nat.lt_or_ge files.length 1 with h1 | h1
      · have h0 : files.length = 0 := by omega
        rw [h0] at hperm ⊢
        rw [List.range_zero] at hperm ⊢
        exact hperm.eq_nil
      · have h0 : files.length = 1 := by omega
        rw [h0] at hperm ⊢
        have hro : List.range 1 = [0] := rfl
        rw [hro] at hperm ⊢
        exact List.perm_singleton.mp hperm
    have hnil : ((List.range files.length).filter
        (fun idx => ¬ idx ∈ (kahnFinal files).order)) = [] := by
      apply List.filter_eq_nil_iff.mpr
      intro a ha
      rw [horder]
      simp [ha]
    rw [hnil, horder]
    simp [insSort]
  · rfl

/-! ## Component grouping: permutation facts -/

theorem visitNeighbors_basic (allowed V0 : Finset Nat) (ns : List Nat) :
    ∀ (stack : List Nat) (visited : Finset Nat) (comp : List Nat),
      comp.Nodup → comp.toFinset = visited \ V0 → V0 ⊆ visited →
      visited ⊆ V0 ∪ allowed →
      (visitNeighbors allowed ns (stack, visited, comp)).2.2.Nodup ∧
      (visitNeighbors allowed ns (stack, visited, comp)).2.2.toFinset
        = (visitNeighbors allowed ns (stack, visited, comp)).2.1 \ V0 ∧
      V0 ⊆ (visitNeighbors allowed ns (stack, visited, comp)).2.1 ∧
      (visitNeighbors allowed ns (stack, visited, comp)).2.1 ⊆ V0 ∪ allowed ∧
      visited ⊆ (visitNeighbors allowed ns (stack, visited, comp)).2.1 := by
  induction ns with
  | nil =>
    intro stack visited comp h1 h2 h3 h4
    exact ⟨h1, h2, h3, h4, Finset.Subset.refl _⟩
  | cons nb ns ih =>
    intro stack visited comp h1 h2 h3 h4
    by_cases hc : nb ∈ allowed ∧ nb ∉ visited
    · rw [visitNeighbors, if_pos hc]
      have hnbc : nb ∉ comp := by
        intro hcon
        have := h2 ▸ List.mem_toFinset.mpr hcon
        exact hc.2 (Finset.mem_sdiff.mp this).1
      have hnbV0 : nb ∉ V0 := fun hcon => hc.2 (h3 hcon)
      have h1b : (comp ++ [nb]).Nodup := by
        simp [List.nodup_append, h1, hnbc]
      have h2b : (comp ++ [nb]).toFinset = insert nb visited \ V0 := by
        ext x
        simp only [List.toFinset_append, List.toFinset_cons, List.toFinset_nil,
          Finset.mem_union, List.mem_toFinset, Finset.mem_sdiff, Finset.mem_insert]
        constructor
        · rintro (hx | hx)
          · have := h2 ▸ List.mem_toFinset.mpr hx
            rcases Finset.mem_sdiff.mp this with ⟨hv, hnv⟩
            exact ⟨Or.inr hv, hnv⟩
          · simp only [Finset.mem_insert, Finset.not_mem_empty, or_false] at hx
            subst hx
            exact ⟨Or.inl rfl, hnbV0⟩
        · rintro ⟨hx | hx, hnv⟩
          · subst hx
            right
            simp
          · left
            have : x ∈ visited \ V0 := Finset.mem_sdiff.mpr ⟨hx, hnv⟩
            exact List.mem_toFinset.mp (h2 ▸ this)
      have h3b : V0 ⊆ insert nb visited := h3.trans (Finset.subset_insert nb visited)
      have h4b : insert nb visited ⊆ V0 ∪ allowed := by
        intro x hx
        rcases Finset.mem_insert.mp hx with rfl | hx
        · exact Finset.mem_union_right _ hc.1
        · exact h4 hx
      have := ih (nb :: stack) (insert nb visited) (comp ++ [nb]) h1b h2b h3b h4b
      exact ⟨this.1, this.2.1, this.2.2.1, this.2.2.2.1,
        (Finset.subset_insert nb visited).trans this.2.2.2.2⟩
    · rw [visitNeighbors, if_neg hc]
      exact ih stack visited comp h1 h2 h3 h4

theorem dfsLoop_basic (enum : Nat → List Nat) (allowed V0 : Finset Nat) :
    ∀ (fuel : Nat) (stack : List Nat) (visited : Finset Nat) (comp : List Nat),
      comp.Nodup → comp.toFinset = visited \ V0 → V0 ⊆ visited →
      visited ⊆ V0 ∪ allowed →
      (dfsLoop enum allowed fuel stack visited comp).2.Nodup ∧
      (dfsLoop enum allowed fuel stack visited comp).2.toFinset
        = (dfsLoop enum allowed fuel stack visited comp).1 \ V0 ∧
      V0 ⊆ (dfsLoop enum allowed fuel stack visited comp).1 ∧
      (dfsLoop enum allowed fuel stack visited comp).1 ⊆ V0 ∪ allowed ∧
      visited ⊆ (dfsLoop enum allowed fuel stack visited comp).1 := by
  intro fuel
  induction fuel with
  | zero =>
    intro stack visited comp h1 h2 h3 h4
    cases stack with
    | nil => exact ⟨h1, h2, h3, h4, Finset.Subset.refl _⟩
    | cons node rest => exact ⟨h1, h2, h3, h4, Finset.Subset.refl _⟩
  | succ fuel ih =>
    intro stack visited comp h1 h2 h3 h4
    cases stack with
    | nil => exact ⟨h1, h2, h3, h4, Finset.Subset.refl _⟩
    | cons node rest =>
      rw [dfsLoop]
      have hv := visitNeighbors_basic allowed V0 (enum node) rest visited comp h1 h2 h3 h4
      have := ih (visitNeighbors allowed (enum node) (rest, visited, comp)).1
        (visitNeighbors allowed (enum node) (rest, visited, comp)).2.1
        (visitNeighbors allowed (enum node) (rest, visited, comp)).2.2
        hv.1 hv.2.1 hv.2.2.1 hv.2.2.2.1
      exact ⟨this.1, this.2.1, this.2.2.1, this.2.2.2.1,
        hv.2.2.2.2.trans this.2.2.2.2⟩

theorem groupLoop_basic (enum : Nat → List Nat) (allowed : Finset Nat) (posOf : Nat → Nat) :
    ∀ (starts : List Nat) (visited : Finset Nat) (grouped : List Nat),
      grouped.Nodup → grouped.toFinset = visited → visited ⊆ allowed →
      (∀ x ∈ starts, x ∈ allowed) →
      (groupLoop enum allowed posOf starts visited grouped).Nodup ∧
      (groupLoop enum allowed posOf starts visited grouped).toFinset ⊆ allowed ∧
      grouped.toFinset ⊆ (groupLoop enum allowed posOf starts visited grouped).toFinset ∧
      (∀ x ∈ starts, x ∈ (groupLoop enum allowed posOf starts visited grouped).toFinset) := by
  intro starts
  induction starts with
  | nil =>
    intro visited grouped h1 h2 h3 _
    refine ⟨h1, ?_, Finset.Subset.refl _, by simp⟩
    simp only [groupLoop]
    rw [h2]
    exact h3
  | cons start rest ih =>
    intro visited grouped h1 h2 h3 hstarts
    have hstart : start ∈ allowed := hstarts start (List.mem_cons_self start rest)
    by_cases hvis : start ∈ visited
    · rw [groupLoop, if_pos hvis]
      have := ih visited grouped h1 h2 h3
        (fun x hx => hstarts x (List.mem_cons_of_mem start hx))
      refine ⟨this.1, this.2.1, this.2.2.1, ?_⟩
      intro x hx
      rcases List.mem_cons.mp hx with rfl | hx2
      · exact this.2.2.1 (h2 ▸ hvis)
      · exact this.2.2.2 x hx2
    · rw [groupLoop, if_neg hvis]
      have hd := dfsLoop_basic enum allowed visited (allowed.card + 1) [start]
        (insert start visited) [start]
        (by simp)
        (by
          ext x
          simp only [List.toFinset_cons, List.toFinset_nil, Finset.mem_sdiff,
            Finset.mem_insert, insert_emptyc_eq, Finset.mem_singleton]
          constructor
          · rintro rfl; exact ⟨Or.inl rfl, hvis⟩
          · rintro ⟨hx | hx, hnv⟩
            · exact hx
            · exact absurd hx hnv)
        (Finset.subset_insert start visited)
        (by
          intro x hx
          rcases Finset.mem_insert.mp hx with rfl | hx
          · exact Finset.mem_union_right _ hstart
          · exact Finset.mem_union_left _ hx)
      set r := dfsLoop enum allowed (allowed.card + 1) [start] (insert start visited) [start]
        with hr
      have hsortperm := insSort_perm (posLe posOf) r.2
      have hsortnd : (insSort (posLe posOf) r.2).Nodup := hsortperm.nodup_iff.mpr hd.1
      have hgnd : (grouped ++ insSort (posLe posOf) r.2).Nodup := by
        rw [List.nodup_append]
        refine ⟨h1, hsortnd, ?_⟩
        intro a ha hb
        have hav : a ∈ visited := h2 ▸ List.mem_toFinset.mpr ha
        have hbset : a ∈ r.2.toFinset := List.mem_toFinset.mpr (hsortperm.mem_iff.mp hb)
        rw [hd.2.1] at hbset
        exact (Finset.mem_sdiff.mp hbset).2 hav
      have hgset : (grouped ++ insSort (posLe posOf) r.2).toFinset = r.1 := by
        ext x
        simp only [List.toFinset_append, Finset.mem_union, List.mem_toFinset]
        constructor
        · rintro (hx | hx)
          · exact hd.2.2.2.2 (Finset.mem_insert_of_mem (h2 ▸ List.mem_toFinset.mpr hx))
          · have : x ∈ r.2.toFinset := List.mem_toFinset.mpr (hsortperm.mem_iff.mp hx)
            rw [hd.2.1] at this
            exact (Finset.mem_sdiff.mp this).1
        · intro hx
          by_cases hxv : x ∈ visited
          · exact Or.inl (List.mem_toFinset.mp (h2 ▸ hxv))
          · right
            rw [← List.mem_toFinset] at *
            have : x ∈ r.2.toFinset := by
              rw [hd.2.1]
              exact Finset.mem_sdiff.mpr ⟨hx, hxv⟩
            exact List.mem_toFinset.mpr
              (hsortperm.mem_iff.mpr (List.mem_toFinset.mp this))
      have hrall : r.1 ⊆ allowed := by
        have := hd.2.2.2.1
        intro x hx
        rcases Finset.mem_union.mp (this hx) with hx2 | hx2
        · exact h3 hx2
        · exact hx2
      have := ih r.1 (grouped ++ insSort (posLe posOf) r.2) hgnd hgset hrall
        (fun x hx => hstarts x (List.mem_cons_of_mem start hx))
      refine ⟨this.1, this.2.1, ?_, ?_⟩
      · refine Finset.Subset.trans ?_ this.2.2.1
        rw [hgset]
        intro x hx
        exact hd.2.2.2.2 (Finset.mem_insert_of_mem (h2 ▸ hx))
      · intro x hx
        rcases List.mem_cons.mp hx with rfl | hx2
        · apply this.2.2.1
          rw [hgset]
          exact hd.2.2.2.2 (Finset.mem_insert_self x visited)
        · exact this.2.2.2 x hx2

/-- Grouping code files by related components permutes the incoming code
sequence (every code file appears exactly once in the grouped output). -/
theorem grouped_perm (enum : Nat → List Nat) (code_order : List Nat)
    (hnd : code_order.Nodup) :
    (group_code_by_related_components_enum enum code_order).Perm code_order := by
  simp only [group_code_by_related_components_enum]
  split
  · exact List.Perm.refl _
  · have := groupLoop_basic enum code_order.toFinset (positionOf code_order)
      code_order ∅ [] List.nodup_nil (by simp) (by simp)
      (fun x hx => List.mem_toFinset.mpr hx)
    apply (List.perm_ext_iff_of_nodup this.1 hnd).mpr
    intro a
    constructor
    · intro ha
      exact List.mem_toFinset.mp (this.2.1 (List.mem_toFinset.mpr ha))
    · intro ha
      exact List.mem_toFinset.mp (this.2.2.2 a ha)

/-! ## The pack pipeline: partition and sum facts -/

theorem dist_doc_flatten (docs code : List Nat) (k : Nat) (w : Nat → Nat) :
    (distribute_with_doc_strategy docs code k w).flatten = docs ++ code := by
  simp only [distribute_with_doc_strategy]
  split
  · exact distribute_files_flatten _ _ _
  · split
    · exact distribute_files_flatten _ _ _
    · rw [List.flatten_append, distribute_files_flatten, distribute_files_flatten]

theorem dist_doc_mem_ne_nil (docs code : List Nat) (k : Nat) (w : Nat → Nat)
    (b : List Nat) (hb : b ∈ distribute_with_doc_strategy docs code k w) : b ≠ [] := by
  simp only [distribute_with_doc_strategy] at hb
  split at hb
  · exact distribute_files_mem_ne_nil _ _ _ b hb
  · split at hb
    · exact distribute_files_mem_ne_nil _ _ _ b hb
    · rcases List.mem_append.mp hb with hb | hb
      · exact distribute_files_mem_ne_nil _ _ _ b hb
      · exact distribute_files_mem_ne_nil _ _ _ b hb

theorem dist_doc_length_le (docs code : List Nat) (k : Nat) (w : Nat → Nat) (hk : 1 ≤ k) :
    (distribute_with_doc_strategy docs code k w).length ≤ k := by
  simp only [distribute_with_doc_strategy]
  split
  · exact distribute_files_length_le _ _ _ hk
  · rename_i hcond
    split
    · exact distribute_files_length_le _ _ _ hk
    · rename_i htot
      have hk2 : 2 ≤ k := by
        rcases Nat.lt_or_ge k 2 with h | h
        · exfalso
          apply hcond
          have hk1 : k ≤ 1 := by omega
          simp [hk1]
        · exact h
      have hdpc1 : 1 ≤ (((docs.map w).sum * k + ((docs ++ code).map w).sum / 2)
          / ((docs ++ code).map w).sum).max 1 := Nat.le_max_right _ 1
      set dpc := ((((docs.map w).sum * k + ((docs ++ code).map w).sum / 2)
          / ((docs ++ code).map w).sum).max 1).min (k - 1) with hdpc
      have hd1 : 1 ≤ dpc := by
        rw [hdpc]
        have : 1 ≤ k - 1 := by omega
        exact le_min hdpc1 this
      have hdk : dpc ≤ k - 1 := min_le_right _ _
      rw [List.length_append]
      have h1 := distribute_files_length_le docs dpc w hd1
      have h2 := distribute_files_length_le code (k - dpc) w (by omega)
      omega

theorem enumFrom_map_snd {α β : Type} (f : α → β) :
    ∀ (n : Nat) (l : List α), (List.enumFrom n l).map (fun x => f x.2) = l.map f := by
  intro n l
  induction l generalizing n with
  | nil => rfl
  | cons x t ih =>
    show ((n, x) :: List.enumFrom (n + 1) t).map (fun x => f x.2) = f x :: t.map f
    rw [List.map_cons, ih]

theorem enumFrom_mem_snd {α : Type} :
    ∀ (n : Nat) (l : List α) (p : Nat × α), p ∈ List.enumFrom n l → p.2 ∈ l := by
  intro n l
  induction l generalizing n with
  | nil => intro p hp; simp [List.enumFrom] at hp
  | cons x t ih =>
    intro p hp
    have hp2 : p = (n, x) ∨ p ∈ List.enumFrom (n + 1) t := List.mem_cons.mp hp
    rcases hp2 with rfl | hp2
    · simp
    · exact List.mem_cons_of_mem x (ih (n + 1) p hp2)

theorem buildPacks_eq_map (files : List FileContent) (format : String) (w : Nat → Nat) :
    ∀ (bs : List (Nat × List Nat)), (∀ p ∈ bs, p.2 ≠ []) →
      buildPacks files format w bs = bs.map (fun x => mkPackItem files format w x.1 x.2) := by
  intro bs
  induction bs with
  | nil => intro _; rfl
  | cons x rest ih =>
    intro h
    have hx : x.2 ≠ [] := h x (List.mem_cons_self x rest)
    rw [buildPacks, if_neg (by simpa [List.isEmpty_iff] using hx),
      ih (fun p hp => h p (List.mem_cons_of_mem x hp))]
    rfl

theorem flatten_map_map {α β : Type} (f : α → β) :
    ∀ (l : List (List α)), (l.map (fun bin => bin.map f)).flatten = l.flatten.map f := by
  intro l
  induction l with
  | nil => rfl
  | cons b t ih =>
    rw [List.map_cons, List.flatten_cons, List.flatten_cons, List.map_append, ih]

theorem sum_map_sum (w : Nat → Nat) :
    ∀ (l : List (List Nat)), (l.map (fun bin => (bin.map w).sum)).sum = (l.flatten.map w).sum := by
  intro l
  induction l with
  | nil => rfl
  | cons b t ih =>
    rw [List.map_cons, List.flatten_cons, List.sum_cons, List.map_append, List.sum_append, ih]

theorem map_range_getD {β : Type} (l : List FileContent) (g : FileContent → β) :
    (List.range l.length).map (fun i => g (l.getD i ⟨"", "", none⟩)) = l.map g := by
  induction l with
  | nil => rfl
  | cons x t ih =>
    rw [List.length_cons, List.range_succ_eq_map]
    simp only [List.map_cons, List.map_map]
    congr 1

theorem map_range_getD_path (l : List FileContent) :
    (List.range l.length).map (fun i => pathOfIdx l i) = l.map (fun f => f.path) := by
  have := map_range_getD l (fun f => f.path)
  rw [← this]
  apply List.map_congr_left
  intro i _
  rfl

/-- The flattened bins of the `pack_files` pipeline are a permutation of
`0..n`: ordering, splitting, grouping and distribution neither drop nor
duplicate a file index. -/
theorem pipeline_bins_perm (files : List FileContent) (enum : Nat → List Nat) (k : Nat) :
    ((distribute_with_doc_strategy
        (split_docs_and_code (compute_dependency_order files) files).1
        (group_code_by_related_components_enum enum
          (split_docs_and_code (compute_dependency_order files) files).2)
        k (token_counts files)).flatten).Perm (List.range files.length) := by
  rw [dist_doc_flatten]
  have hperm := compute_dependency_order_perm files
  have hnd : (compute_dependency_order files).Nodup :=
    hperm.nodup_iff.mpr (List.nodup_range _)
  have hcode_nd : ((split_docs_and_code (compute_dependency_order files) files).2).Nodup := by
    simp only [split_docs_and_code]
    exact List.Nodup.filter _ hnd
  have hg := grouped_perm enum
    ((split_docs_and_code (compute_dependency_order files) files).2) hcode_nd
  have hsplit : (((split_docs_and_code (compute_dependency_order files) files).1)
      ++ ((split_docs_and_code (compute_dependency_order files) files).2)).Perm
        (compute_dependency_order files) := by
    simp only [split_docs_and_code]
    have h1 := insSort_perm (fun a b =>
      docKeyLe (doc_priority (pathOfIdx files a)) (doc_priority (pathOfIdx files b)))
      ((compute_dependency_order files).filter
        (fun idx => is_doc_file (pathOfIdx files idx)))
    have h2 := List.filter_append_perm
      (fun idx => is_doc_file (pathOfIdx files idx)) (compute_dependency_order files)
    have h3 : ((compute_dependency_order files).filter
        (fun idx => ¬ is_doc_file (pathOfIdx files idx)))
        = ((compute_dependency_order files).filter
          (fun idx => !(is_doc_file (pathOfIdx files idx)))) := by
      apply List.filter_congr
      intro x _
      simp
    rw [h3]
    exact (List.Perm.append h1 (List.Perm.refl _)).trans h2
  exact ((List.Perm.append (List.Perm.refl _) hg).trans hsplit).trans hperm

/-- The bins computed by the `pack_files` pipeline for a request. -/
def pipelineBins (enum : Nat → List Nat) (request : PackRequest) : List (List Nat) :=
  distribute_with_doc_strategy
    (split_docs_and_code (compute_dependency_order request.files) request.files).1
    (group_code_by_related_components_enum enum
      (split_docs_and_code (compute_dependency_order request.files) request.files).2)
    (request.numPacks.max 1) (token_counts request.files)

theorem pack_files_enum_eq (enum : Nat → List Nat) (request : PackRequest)
    (hne : ¬ request.files.isEmpty = true) :
    pack_files_enum enum request =
      { packs := buildPacks request.files request.outputFormat (token_counts request.files)
          (pipelineBins enum request).enum
        totalTokens :=
          ((List.range request.files.length).map (token_counts request.files)).sum } := by
  simp only [pack_files_enum, pipelineBins]
  rw [if_neg hne]

theorem pipelineBins_mem_ne_nil (enum : Nat → List Nat) (request : PackRequest)
    (p : Nat × List Nat) (hp : p ∈ (pipelineBins enum request).enum) : p.2 ≠ [] :=
  dist_doc_mem_ne_nil _ _ _ _ p.2 (enumFrom_mem_snd 0 _ p hp)

theorem pipelineBins_packs (enum : Nat → List Nat) (request : PackRequest) :
    buildPacks request.files request.outputFormat (token_counts request.files)
        (pipelineBins enum request).enum
      = (pipelineBins enum request).enum.map
          (fun x => mkPackItem request.files request.outputFormat
            (token_counts request.files) x.1 x.2) :=
  buildPacks_eq_map _ _ _ _ (pipelineBins_mem_ne_nil enum request)

theorem token_counts_map_eq (files : List FileContent) :
    (List.range files.length).map (token_counts files)
      = files.map (fun f => f.tokenCount.getD (estimate_tokens f.content)) := by
  have h := map_range_getD files (fun f => f.tokenCount.getD (estimate_tokens f.content))
  rw [← h]
  apply List.map_congr_left
  intro i _
  rfl

/-! ## Claim C1 -/

/-- C1: for every non-empty input file list, the multiset of file paths
across all returned packs is exactly the multiset of input file paths. -/
theorem claim_C1 (request : PackRequest) (hne : request.files ≠ []) :
    (((pack_files request).packs.map (fun p => p.filePaths)).flatten).Perm
      (request.files.map (fun f => f.path)) := by
  have hne2 : ¬ request.files.isEmpty = true := by simpa [List.isEmpty_iff] using hne
  rw [pack_files]
  rw [pack_files_enum_eq _ _ hne2]
  simp only [pipelineBins_packs]
  rw [List.map_map]
  have hmk : ((pipelineBins (canonicalEnum request.files) request).enum.map
      ((fun p => p.filePaths) ∘ (fun x => mkPackItem request.files request.outputFormat
        (token_counts request.files) x.1 x.2)))
      = (pipelineBins (canonicalEnum request.files) request).enum.map
        (fun x => x.2.map (fun fi => pathOfIdx request.files fi)) := rfl
  rw [hmk]
  simp only [List.enum]
  have he : (List.enumFrom 0 (pipelineBins (canonicalEnum request.files) request)).map
      (fun x => List.map (fun fi => pathOfIdx request.files fi) x.2)
      = (pipelineBins (canonicalEnum request.files) request).map
        (fun bin => bin.map (fun fi => pathOfIdx request.files fi)) :=
    enumFrom_map_snd (fun (bin : List Nat) => bin.map (fun fi => pathOfIdx request.files fi)) 0 _
  rw [he, flatten_map_map]
  have hperm := pipeline_bins_perm request.files (canonicalEnum request.files)
    (request.numPacks.max 1)
  have := hperm.map (fun fi => pathOfIdx request.files fi)
  rw [map_range_getD_path] at this
  exact this

theorem claim_C1_witness :
    (([⟨"a.ts", "const x = 1", some 3⟩] : List FileContent) ≠ []) ∧
    ((((pack_files ⟨[⟨"a.ts", "const x = 1", some 3⟩], 1, "plaintext"⟩).packs.map
        (fun p => p.filePaths)).flatten).Perm
      (([⟨"a.ts", "const x = 1", some 3⟩] : List FileContent).map (fun f => f.path))) :=
  ⟨by decide, claim_C1 ⟨[⟨"a.ts", "const x = 1", some 3⟩], 1, "plaintext"⟩ (by decide)⟩

/-! ## Claim C2 -/

/-- C2: for every input, the sum of the packs' token totals equals the sum of
the per-file token counts (a missing count contributing
`max(1, byteLength(content)/4)`), and this also equals the response's
`totalTokens` field. -/
theorem claim_C2 (request : PackRequest) :
    ((pack_files request).packs.map (fun p => p.estimatedTokens)).sum
      = (request.files.map
          (fun f => f.tokenCount.getD (estimate_tokens f.content))).sum ∧
    (pack_files request).totalTokens
      = (request.files.map
          (fun f => f.tokenCount.getD (estimate_tokens f.content))).sum := by
  by_cases hne : request.files.isEmpty = true
  · have hnil : request.files = [] := List.isEmpty_iff.mp hne
    rw [pack_files]
    simp only [pack_files_enum, hne, if_true]
    simp [hnil]
  · rw [pack_files, pack_files_enum_eq _ _ hne]
    have hsum : ((((pipelineBins (canonicalEnum request.files) request).enum.map
        (fun x => mkPackItem request.files request.outputFormat
          (token_counts request.files) x.1 x.2)).map
          (fun p => p.estimatedTokens)).sum)
        = ((List.range request.files.length).map (token_counts request.files)).sum := by
      rw [List.map_map]
      have hmk : ((pipelineBins (canonicalEnum request.files) request).enum.map
          ((fun p => p.estimatedTokens) ∘ (fun x => mkPackItem request.files
            request.outputFormat (token_counts request.files) x.1 x.2)))
          = (pipelineBins (canonicalEnum request.files) request).enum.map
            (fun x => (x.2.map (token_counts request.files)).sum) := rfl
      rw [hmk]
      simp only [List.enum]
      have he : (List.enumFrom 0 (pipelineBins (canonicalEnum request.files) request)).map
          (fun x => (List.map (token_counts request.files) x.2).sum)
          = (pipelineBins (canonicalEnum request.files) request).map
            (fun bin => (bin.map (token_counts request.files)).sum) :=
        enumFrom_map_snd (fun (bin : List Nat) => (bin.map (token_counts request.files)).sum) 0 _
      rw [he, sum_map_sum]
      have hperm := (pipeline_bins_perm request.files (canonicalEnum request.files)
        (request.numPacks.max 1)).map (token_counts request.files)
      exact hperm.sum_eq
    constructor
    · simp only [pipelineBins_packs]
      rw [hsum, token_counts_map_eq]
    · rw [token_counts_map_eq]

/-! ## Claim C8 -/

/-- C8: an empty file list yields an empty pack list and zero total tokens;
for a non-empty file list (with the spec's request domain `numPacks ≥ 1`),
between 1 and `numPacks` packs are returned and none of them is empty. -/
theorem claim_C8 (request : PackRequest) (hpk : 1 ≤ request.numPacks) :
    (request.files = [] →
      (pack_files request).packs = [] ∧ (pack_files request).totalTokens = 0) ∧
    (request.files ≠ [] →
      1 ≤ (pack_files request).packs.length ∧
      (pack_files request).packs.length ≤ request.numPacks ∧
      ∀ p ∈ (pack_files request).packs, p.filePaths ≠ [] ∧ 0 < p.fileCount) := by
  constructor
  · intro hnil
    rw [pack_files]
    simp only [pack_files_enum, hnil]
    simp
  · intro hne
    have hne2 : ¬ request.files.isEmpty = true := by simpa [List.isEmpty_iff] using hne
    rw [pack_files, pack_files_enum_eq _ _ hne2]
    simp only [pipelineBins_packs]
    have hlen : ((pipelineBins (canonicalEnum request.files) request).enum.map
        (fun x => mkPackItem request.files request.outputFormat
          (token_counts request.files) x.1 x.2)).length
        = (pipelineBins (canonicalEnum request.files) request).length := by
      rw [List.length_map, List.enum_length]
    refine ⟨?_, ?_, ?_⟩
    · rw [hlen]
      by_contra hz
      push_neg at hz
      have hz0 : (pipelineBins (canonicalEnum request.files) request).length = 0 := by omega
      have hnil2 : (pipelineBins (canonicalEnum request.files) request) = [] :=
        List.eq_nil_of_length_eq_zero hz0
      have hpb : (pipelineBins (canonicalEnum request.files) request).flatten.Perm
          (List.range request.files.length) :=
        pipeline_bins_perm request.files (canonicalEnum request.files)
          (request.numPacks.max 1)
      rw [hnil2] at hpb
      have hrange : List.range request.files.length = [] := by
        have := hpb.symm
        exact List.Perm.eq_nil this
      have hlen0 : request.files.length = 0 := List.range_eq_nil.mp hrange
      exact hne (List.eq_nil_of_length_eq_zero hlen0)
    · rw [hlen]
      have := dist_doc_length_le
        (split_docs_and_code (compute_dependency_order request.files) request.files).1
        (group_code_by_related_components_enum (canonicalEnum request.files)
          (split_docs_and_code (compute_dependency_order request.files) request.files).2)
        (request.numPacks.max 1) (token_counts request.files) (Nat.le_max_right _ 1)
      have hmax : request.numPacks.max 1 = request.numPacks := Nat.max_eq_left hpk
      rw [← pipelineBins] at this
      omega
    · intro p hp
      simp only [List.mem_map] at hp
      rcases hp with ⟨x, hx, rfl⟩
      have hxne := pipelineBins_mem_ne_nil (canonicalEnum request.files) request x hx
      constructor
      · simp only [mkPackItem]
        intro hcon
        exact hxne (List.map_eq_nil_iff.mp hcon)
      · simp only [mkPackItem]
        exact List.length_pos.mpr hxne

theorem claim_C8_witness :
    1 ≤ (pack_files ⟨[⟨"a.ts", "x", some 2⟩], 1, "plaintext"⟩).packs.length ∧
    (pack_files ⟨[⟨"a.ts", "x", some 2⟩], 1, "plaintext"⟩).packs.length ≤ 1 := by
  have h := (claim_C8 ⟨[⟨"a.ts", "x", some 2⟩], 1, "plaintext"⟩ (by decide)).2 (by decide)
  exact ⟨h.1, h.2.1⟩

/-! ## Component DFS: reachability characterisation -/

/-- One step of relatedness restricted to `allowed` (the related-adjacency
restricted to the code subsequence). -/
def SRel (related : Nat → Finset Nat) (allowed : Finset Nat) (x y : Nat) : Prop :=
  y ∈ related x ∧ x ∈ allowed ∧ y ∈ allowed

theorem visitNeighbors_master (related : Nat → Finset Nat) (allowed : Finset Nat)
    (node start : Nat) (V0 : Finset Nat)
    (hnodeA : node ∈ allowed)
    (hnodeC : Relation.ReflTransGen (SRel related allowed) start node) :
    ∀ (ns stack : List Nat) (visited : Finset Nat) (comp : List Nat),
      (∀ y ∈ ns, y ∈ related node) →
      (∀ x ∈ stack, x ∈ visited ∧ x ∈ allowed ∧
        Relation.ReflTransGen (SRel related allowed) start x) →
      (∀ x ∈ visited, x ∈ V0 ∨ Relation.ReflTransGen (SRel related allowed) start x) →
      (∀ y, y ∈ related node → y ∈ allowed → y ∉ ns → y ∈ visited) →
      (∃ pushed, (visitNeighbors allowed ns (stack, visited, comp)).1 = pushed ++ stack ∧
        (visitNeighbors allowed ns (stack, visited, comp)).2.1 = visited ∪ pushed.toFinset) ∧
      (∀ x ∈ (visitNeighbors allowed ns (stack, visited, comp)).1,
        x ∈ (visitNeighbors allowed ns (stack, visited, comp)).2.1 ∧ x ∈ allowed ∧
        Relation.ReflTransGen (SRel related allowed) start x) ∧
      (∀ x ∈ (visitNeighbors allowed ns (stack, visited, comp)).2.1,
        x ∈ V0 ∨ Relation.ReflTransGen (SRel related allowed) start x) ∧
      (∀ y, y ∈ related node → y ∈ allowed →
        y ∈ (visitNeighbors allowed ns (stack, visited, comp)).2.1) ∧
      visited ⊆ (visitNeighbors allowed ns (stack, visited, comp)).2.1 := by
  intro ns
  induction ns with
  | nil =>
    intro stack visited comp _ hstack hvis H
    refine ⟨⟨[], by rw [visitNeighbors]; rfl, by rw [visitNeighbors]; simp⟩,
      hstack, hvis, ?_, Finset.Subset.refl _⟩
    intro y hy hya
    exact H y hy hya (by simp)
  | cons nb rest ih =>
    intro stack visited comp hns hstack hvis H
    have hnbrel : nb ∈ related node := hns nb (List.mem_cons_self nb rest)
    by_cases hc : nb ∈ allowed ∧ nb ∉ visited
    · rw [visitNeighbors, if_pos hc]
      have hnbC : Relation.ReflTransGen (SRel related allowed) start nb :=
        hnodeC.tail ⟨hnbrel, hnodeA, hc.1⟩
      have hstack2 : ∀ x ∈ nb :: stack, x ∈ insert nb visited ∧ x ∈ allowed ∧
          Relation.ReflTransGen (SRel related allowed) start x := by
        intro x hx
        rcases List.mem_cons.mp hx with rfl | hx
        · exact ⟨Finset.mem_insert_self _ _, hc.1, hnbC⟩
        · rcases hstack x hx with ⟨h1, h2, h3⟩
          exact ⟨Finset.mem_insert_of_mem h1, h2, h3⟩
      have hvis2 : ∀ x ∈ insert nb visited, x ∈ V0 ∨
          Relation.ReflTransGen (SRel related allowed) start x := by
        intro x hx
        rcases Finset.mem_insert.mp hx with rfl | hx
        · exact Or.inr hnbC
        · exact hvis x hx
      have H2 : ∀ y, y ∈ related node → y ∈ allowed → y ∉ rest →
          y ∈ insert nb visited := by
        intro y hy hya hyr
        by_cases hynb : y = nb
        · subst hynb; exact Finset.mem_insert_self _ _
        · refine Finset.mem_insert_of_mem (H y hy hya ?_)
          intro hcon
          rcases List.mem_cons.mp hcon with h | h
          · exact hynb h
          · exact hyr h
      have := ih (nb :: stack) (insert nb visited) (comp ++ [nb])
        (fun y hy => hns y (List.mem_cons_of_mem nb hy)) hstack2 hvis2 H2
      rcases this with ⟨⟨pushed, hps, hpv⟩, hb, hcv, hd, hmono⟩
      refine ⟨⟨pushed ++ [nb], by simpa using hps, ?_⟩, hb, hcv, hd, ?_⟩
      · rw [hpv]
        ext x
        simp only [Finset.mem_union, Finset.mem_insert, List.toFinset_append,
          List.mem_toFinset, List.toFinset_cons, List.toFinset_nil]
        constructor
        · rintro ((rfl | hx) | hx)
          · right; right; simp
          · exact Or.inl hx
          · right; left; exact hx
        · rintro (hx | hx | hx)
          · exact Or.inl (Or.inr hx)
          · exact Or.inr hx
          · simp only [Finset.mem_insert, Finset.not_mem_empty, or_false] at hx
            subst hx
            exact Or.inl (Or.inl rfl)
      · exact (Finset.subset_insert nb visited).trans hmono
    · rw [visitNeighbors, if_neg hc]
      have H2 : ∀ y, y ∈ related node → y ∈ allowed → y ∉ rest → y ∈ visited := by
        intro y hy hya hyr
        by_cases hynb : y = nb
        · subst hynb
          by_cases hv : y ∈ visited
          · exact hv
          · exact absurd ⟨hya, hv⟩ hc
        · refine H y hy hya ?_
          intro hcon
          rcases List.mem_cons.mp hcon with h | h
          · exact hynb h
          · exact hyr h
      exact ih stack visited comp (fun y hy => hns y (List.mem_cons_of_mem nb hy))
        hstack hvis H2

theorem dfsLoop_master (enum : Nat → List Nat) (related : Nat → Finset Nat)
    (allowed : Finset Nat)
    (hvalid : ∀ i, i ∈ allowed → ∀ x, x ∈ enum i ↔ x ∈ related i)
    (start : Nat) (V0 : Finset Nat) :
    ∀ (fuel : Nat) (stack : List Nat) (visited : Finset Nat) (comp : List Nat),
      (∀ x ∈ stack, x ∈ visited ∧ x ∈ allowed ∧
        Relation.ReflTransGen (SRel related allowed) start x) →
      (∀ x ∈ visited, x ∈ V0 ∨ Relation.ReflTransGen (SRel related allowed) start x) →
      (∀ x ∈ visited, x ∉ stack → ∀ y, y ∈ related x → y ∈ allowed → y ∈ visited) →
      stack.length + (allowed \ visited).card ≤ fuel →
      (∀ x ∈ (dfsLoop enum allowed fuel stack visited comp).1,
        x ∈ V0 ∨ Relation.ReflTransGen (SRel related allowed) start x) ∧
      (∀ x ∈ (dfsLoop enum allowed fuel stack visited comp).1,
        ∀ y, y ∈ related x → y ∈ allowed →
          y ∈ (dfsLoop enum allowed fuel stack visited comp).1) ∧
      visited ⊆ (dfsLoop enum allowed fuel stack visited comp).1 := by
  intro fuel
  induction fuel with
  | zero =>
    intro stack visited comp hstack hvis hclose hfuel
    cases stack with
    | nil =>
      exact ⟨hvis, fun x hx y h1 h2 => hclose x hx (by simp) y h1 h2,
        Finset.Subset.refl _⟩
    | cons node rest => simp at hfuel
  | succ fuel ih =>
    intro stack visited comp hstack hvis hclose hfuel
    cases stack with
    | nil =>
      exact ⟨hvis, fun x hx y h1 h2 => hclose x hx (by simp) y h1 h2,
        Finset.Subset.refl _⟩
    | cons node rest =>
      rcases hstack node (List.mem_cons_self node rest) with ⟨hnodeV, hnodeA, hnodeC⟩
      have hns : ∀ y ∈ enum node, y ∈ related node :=
        fun y hy => (hvalid node hnodeA y).mp hy
      have H : ∀ y, y ∈ related node → y ∈ allowed → y ∉ enum node → y ∈ visited := by
        intro y hy _ hcon
        exact absurd ((hvalid node hnodeA y).mpr hy) hcon
      have hrest : ∀ x ∈ rest, x ∈ visited ∧ x ∈ allowed ∧
          Relation.ReflTransGen (SRel related allowed) start x :=
        fun x hx => hstack x (List.mem_cons_of_mem node hx)
      have hvm := visitNeighbors_master related allowed node start V0 hnodeA hnodeC
        (enum node) rest visited comp hns hrest hvis H
      rcases hvm with ⟨⟨pushed, hps, hpv⟩, hb, hcv, hd, hmono⟩
      rw [dfsLoop]
      have hclose2 : ∀ x ∈ (visitNeighbors allowed (enum node) (rest, visited, comp)).2.1,
          x ∉ (visitNeighbors allowed (enum node) (rest, visited, comp)).1 →
          ∀ y, y ∈ related x → y ∈ allowed →
            y ∈ (visitNeighbors allowed (enum node) (rest, visited, comp)).2.1 := by
        intro x hx hxs y hy hya
        by_cases hxnode : x = node
        · subst hxnode
          exact hd y hy hya
        · rw [hpv] at hx
          rcases Finset.mem_union.mp hx with hx | hx
          · by_cases hxrest : x ∈ rest
            · exfalso
              apply hxs
              rw [hps]
              exact List.mem_append_right pushed hxrest
            · have hxout : x ∉ node :: rest := by
                intro hcon
                rcases List.mem_cons.mp hcon with h | h
                · exact hxnode h
                · exact hxrest h
              exact hmono (hclose x hx hxout y hy hya)
          · exfalso
            apply hxs
            rw [hps]
            exact List.mem_append_left rest (List.mem_toFinset.mp hx)
      have hmeas := visitNeighbors_measure allowed (enum node) rest visited comp
      have hfuel2 : (visitNeighbors allowed (enum node) (rest, visited, comp)).1.length
          + (allowed \ (visitNeighbors allowed (enum node) (rest, visited, comp)).2.1).card
          ≤ fuel := by
        simp only [List.length_cons] at hfuel
        omega
      have := ih (visitNeighbors allowed (enum node) (rest, visited, comp)).1
        (visitNeighbors allowed (enum node) (rest, visited, comp)).2.1
        (visitNeighbors allowed (enum node) (rest, visited, comp)).2.2
        hb hcv hclose2 hfuel2
      exact ⟨this.1, this.2.1, hmono.trans this.2.2⟩

theorem conn_avoids_closed (related : Nat → Finset Nat) (allowed : Finset Nat)
    (hsym : ∀ i j, i ∈ related j → j ∈ related i) (V0 : Finset Nat)
    (hV0closed : ∀ v ∈ V0, ∀ y, y ∈ related v → y ∈ allowed → y ∈ V0)
    (start : Nat) (hsV : start ∉ V0) :
    ∀ x, Relation.ReflTransGen (SRel related allowed) start x → x ∉ V0 := by
  intro x hx
  induction hx with
  | refl => exact hsV
  | tail _ hstep ih =>
    intro hc
    rcases hstep with ⟨hrel, hba, _⟩
    exact ih (hV0closed _ hc _ (hsym _ _ hrel) hba)

theorem dfs_component_char (enum : Nat → List Nat) (related : Nat → Finset Nat)
    (allowed : Finset Nat)
    (hvalid : ∀ i, i ∈ allowed → ∀ x, x ∈ enum i ↔ x ∈ related i)
    (hsym : ∀ i j, i ∈ related j → j ∈ related i)
    (start : Nat) (V0 : Finset Nat)
    (hsA : start ∈ allowed) (hsV : start ∉ V0)
    (hV0closed : ∀ v ∈ V0, ∀ y, y ∈ related v → y ∈ allowed → y ∈ V0)
    (hV0sub : V0 ⊆ allowed) :
    (dfsLoop enum allowed (allowed.card + 1) [start] (insert start V0) [start]).2.Nodup ∧
    (∀ x, x ∈ (dfsLoop enum allowed (allowed.card + 1) [start]
        (insert start V0) [start]).2 ↔
      (x ∈ allowed ∧ Relation.ReflTransGen (SRel related allowed) start x)) ∧
    (dfsLoop enum allowed (allowed.card + 1) [start] (insert start V0) [start]).1
      = V0 ∪ (dfsLoop enum allowed (allowed.card + 1) [start]
        (insert start V0) [start]).2.toFinset := by
  have hbasic := dfsLoop_basic enum allowed V0 (allowed.card + 1) [start]
    (insert start V0) [start]
    (by simp)
    (by
      ext x
      simp only [List.toFinset_cons, List.toFinset_nil, insert_emptyc_eq,
        Finset.mem_singleton, Finset.mem_sdiff, Finset.mem_insert]
      constructor
      · rintro rfl; exact ⟨Or.inl rfl, hsV⟩
      · rintro ⟨hx | hx, hnv⟩
        · exact hx
        · exact absurd hx hnv)
    (Finset.subset_insert start V0)
    (by
      intro x hx
      rcases Finset.mem_insert.mp hx with rfl | hx
      · exact Finset.mem_union_right _ hsA
      · exact Finset.mem_union_left _ hx)
  have hmaster := dfsLoop_master enum related allowed hvalid start V0
    (allowed.card + 1) [start] (insert start V0) [start]
    (by
      intro x hx
      rcases List.mem_cons.mp hx with rfl | hx
      · exact ⟨Finset.mem_insert_self _ _, hsA, Relation.ReflTransGen.refl⟩
      · simp at hx)
    (by
      intro x hx
      rcases Finset.mem_insert.mp hx with rfl | hx
      · exact Or.inr Relation.ReflTransGen.refl
      · exact Or.inl hx)
    (by
      intro x hx hxs y hy hya
      have hxV0 : x ∈ V0 := by
        rcases Finset.mem_insert.mp hx with rfl | hx2
        · exact absurd (List.mem_cons_self x []) hxs
        · exact hx2
      exact Finset.mem_insert_of_mem (hV0closed x hxV0 y hy hya))
    (by
      have := Finset.card_le_card
        (Finset.sdiff_subset : allowed \ insert start V0 ⊆ allowed)
      simp only [List.length_cons, List.length_nil]
      omega)
  set r := dfsLoop enum allowed (allowed.card + 1) [start] (insert start V0) [start]
    with hr
  have hreach : ∀ x, Relation.ReflTransGen (SRel related allowed) start x →
      x ∈ r.1 := by
    intro x hx
    induction hx with
    | refl => exact hmaster.2.2 (Finset.mem_insert_self _ _)
    | tail _ hstep ih => exact hmaster.2.1 _ ih _ hstep.1 hstep.2.2
  refine ⟨hbasic.1, ?_, ?_⟩
  · intro x
    constructor
    · intro hx
      have hxset : x ∈ r.2.toFinset := List.mem_toFinset.mpr hx
      rw [hbasic.2.1] at hxset
      rcases Finset.mem_sdiff.mp hxset with ⟨hx1, hxV0⟩
      refine ⟨?_, ?_⟩
      · rcases Finset.mem_union.mp (hbasic.2.2.2.1 hx1) with h | h
        · exact absurd h hxV0
        · exact h
      · rcases hmaster.1 x hx1 with h | h
        · exact absurd h hxV0
        · exact h
    · rintro ⟨hxa, hxc⟩
      have hx1 : x ∈ r.1 := hreach x hxc
      have hxV0 : x ∉ V0 :=
        conn_avoids_closed related allowed hsym V0 hV0closed start hsV x hxc
      have : x ∈ r.2.toFinset := by
        rw [hbasic.2.1]
        exact Finset.mem_sdiff.mpr ⟨hx1, hxV0⟩
      exact List.mem_toFinset.mp this
  · rw [hbasic.2.1]
    exact (Finset.union_sdiff_of_subset hbasic.2.2.1).symm

theorem posFold_enumFrom (x : Nat) :
    ∀ (l : List Nat) (n acc : Nat), l.Nodup →
      (List.enumFrom n l).foldl (fun acc p => if p.2 = x then p.1 else acc) acc
        = if x ∈ l then n + l.indexOf x else acc := by
  intro l
  induction l with
  | nil => intro n acc _; simp
  | cons y t ih =>
    intro n acc hnd
    rcases List.nodup_cons.mp hnd with ⟨hyt, hndt⟩
    simp only [List.enumFrom, List.foldl_cons]
    by_cases hyx : y = x
    · subst hyx
      have hxt : y ∉ t := hyt
      rw [if_pos rfl, ih (n + 1) n hndt, if_neg hxt,
        if_pos (List.mem_cons_self y t), List.indexOf_cons_self]
      omega
    · rw [if_neg hyx, ih (n + 1) acc hndt]
      by_cases hxt : x ∈ t
      · rw [if_pos hxt, if_pos (List.mem_cons_of_mem y hxt),
          List.indexOf_cons_ne _ (fun hc => hyx hc)]
        omega
      · rw [if_neg hxt, if_neg ?_]
        intro hc
        rcases List.mem_cons.mp hc with h | h
        · exact hyx h.symm
        · exact hxt h

theorem positionOf_eq_indexOf (l : List Nat) (hnd : l.Nodup) (x : Nat)
    (hx : x ∈ l) : positionOf l x = l.indexOf x := by
  rw [positionOf]
  show (List.enumFrom 0 l).foldl (fun acc p => if p.2 = x then p.1 else acc)
    (2 ^ 64 - 1) = l.indexOf x
  rw [posFold_enumFrom x l 0 (2 ^ 64 - 1) hnd, if_pos hx]
  omega

theorem positionOf_inj (l : List Nat) (hnd : l.Nodup) (a b : Nat)
    (ha : a ∈ l) (hb : b ∈ l) (hab : positionOf l a = positionOf l b) : a = b := by
  rw [positionOf_eq_indexOf l hnd a ha, positionOf_eq_indexOf l hnd b hb] at hab
  exact (List.indexOf_inj ha hb).mp hab

theorem insSort_posLe_head (posOf : Nat → Nat) (comp : List Nat) (start : Nat)
    (hmem : start ∈ comp)
    (hmin : ∀ x ∈ comp, x ≠ start → posOf start < posOf x) :
    (insSort (posLe posOf) comp).headD 0 = start := by
  have hperm := insSort_perm (posLe posOf) comp
  have hpw := insSort_pairwise (posLe posOf) (posLe_trans posOf) (posLe_total posOf) comp
  cases hB : insSort (posLe posOf) comp with
  | nil =>
    exfalso
    have := hperm.mem_iff.mpr hmem
    rw [hB] at this
    simp at this
  | cons b bs =>
    rw [hB] at hperm hpw
    by_cases hbs : b = start
    · simp [hbs]
    · exfalso
      have hbc : b ∈ comp := hperm.mem_iff.mp (List.mem_cons_self b bs)
      have hlt : posOf start < posOf b := hmin b hbc hbs
      have hsmem : start ∈ b :: bs := hperm.mem_iff.mpr hmem
      rcases List.mem_cons.mp hsmem with h | h
      · exact hbs h.symm
      · have := (List.pairwise_cons.mp hpw).1 start h
        simp only [posLe, decide_eq_true_eq] at this
        omega

theorem pairwise_posLt_of_sorted (posOf : Nat → Nat) (B : List Nat)
    (hpw : B.Pairwise (fun a b => posLe posOf a b = true)) (hnd : B.Nodup)
    (hinj : ∀ a ∈ B, ∀ b ∈ B, posOf a = posOf b → a = b) :
    B.Pairwise (fun a b => posOf a < posOf b) := by
  have hand := hpw.and hnd
  refine List.Pairwise.imp_of_mem ?_ hand
  intro a b ha hb hab
  rcases hab with ⟨h1, h2⟩
  simp only [posLe, decide_eq_true_eq] at h1
  rcases Nat.lt_or_ge (posOf a) (posOf b) with h | h
  · exact h
  · exact absurd (hinj a ha b hb (Nat.le_antisymm h1 h)) h2

theorem head_le_of_pairwise_lt (posOf : Nat → Nat) (B : List Nat)
    (hpw : B.Pairwise (fun a b => posOf a < posOf b)) :
    ∀ x ∈ B, posOf (B.headD 0) ≤ posOf x := by
  cases B with
  | nil => intro x hx; simp at hx
  | cons b bs =>
    intro x hx
    rcases List.mem_cons.mp hx with rfl | hx
    · exact Nat.le_refl _
    · exact Nat.le_of_lt ((List.pairwise_cons.mp hpw).1 x hx)

theorem groupLoop_canonical (enum : Nat → List Nat) (related : Nat → Finset Nat)
    (allowed : Finset Nat) (posOf : Nat → Nat)
    (hvalid : ∀ i, i ∈ allowed → ∀ x, x ∈ enum i ↔ x ∈ related i)
    (hsym : ∀ i j, i ∈ related j → j ∈ related i)
    (hposinj : ∀ a ∈ allowed, ∀ b ∈ allowed, posOf a = posOf b → a = b) :
    ∀ (starts : List Nat) (visited : Finset Nat) (grouped : List Nat),
      (∀ x ∈ starts, x ∈ allowed) →
      visited ⊆ allowed →
      (∀ v ∈ visited, ∀ y, y ∈ related v → y ∈ allowed → y ∈ visited) →
      (∀ x ∈ allowed, x ∉ visited → x ∈ starts) →
      starts.Pairwise (fun a b => posOf a < posOf b) →
      ∃ blocks : List (List Nat),
        groupLoop enum allowed posOf starts visited grouped
          = grouped ++ blocks.flatten ∧
        (∀ B ∈ blocks, B ≠ [] ∧ B.Nodup ∧
          (∀ x ∈ B, x ∈ allowed) ∧
          (∀ x ∈ B, ∀ y ∈ B, Relation.ReflTransGen (SRel related allowed) x y) ∧
          (∀ x ∈ B, ∀ y, y ∈ allowed →
            Relation.ReflTransGen (SRel related allowed) x y → y ∈ B) ∧
          B.Pairwise (fun a b => posOf a < posOf b)) ∧
        (∀ B ∈ blocks, B.headD 0 ∈ starts) ∧
        blocks.Pairwise (fun B C => posOf (B.headD 0) < posOf (C.headD 0)) := by
  have hCsym : ∀ x y, Relation.ReflTransGen (SRel related allowed) x y →
      Relation.ReflTransGen (SRel related allowed) y x := by
    have hS : Symmetric (SRel related allowed) := by
      intro x y h
      exact ⟨hsym y x h.1, h.2.2, h.2.1⟩
    intro x y h
    exact (Relation.ReflTransGen.symmetric hS) h
  intro starts
  induction starts with
  | nil =>
    intro visited grouped _ _ _ _ _
    refine ⟨[], by simp [groupLoop], by simp, by simp, by simp⟩
  | cons start rest ih =>
    intro visited grouped hstarts hvsub hvclosed hcover hpw
    have hstartA : start ∈ allowed := hstarts start (List.mem_cons_self start rest)
    rcases List.pairwise_cons.mp hpw with ⟨hpwhead, hpwrest⟩
    by_cases hvis : start ∈ visited
    · rw [groupLoop, if_pos hvis]
      have hcover2 : ∀ x ∈ allowed, x ∉ visited → x ∈ rest := by
        intro x hxa hxv
        rcases List.mem_cons.mp (hcover x hxa hxv) with rfl | hx
        · exact absurd hvis hxv
        · exact hx
      rcases ih visited grouped
        (fun x hx => hstarts x (List.mem_cons_of_mem start hx))
        hvsub hvclosed hcover2 hpwrest with ⟨blocks, heq, hblocks, hheads, hbpw⟩
      exact ⟨blocks, heq, hblocks, fun B hB =>
        List.mem_cons_of_mem start (hheads B hB), hbpw⟩
    · rw [groupLoop, if_neg hvis]
      have hchar := dfs_component_char enum related allowed hvalid hsym start visited
        hstartA hvis hvclosed hvsub
      set r := dfsLoop enum allowed (allowed.card + 1) [start]
        (insert start visited) [start] with hr
      have hstartr : start ∈ r.2 :=
        (hchar.2.1 start).mpr ⟨hstartA, Relation.ReflTransGen.refl⟩
      have hmemNV : ∀ x ∈ r.2, x ∉ visited := by
        intro x hx
        exact conn_avoids_closed related allowed hsym visited hvclosed start hvis x
          ((hchar.2.1 x).mp hx).2
      have hmin : ∀ x ∈ r.2, x ≠ start → posOf start < posOf x := by
        intro x hx hxs
        have hxa := ((hchar.2.1 x).mp hx).1
        rcases List.mem_cons.mp (hcover x hxa (hmemNV x hx)) with h | h
        · exact absurd h hxs
        · exact hpwhead x h
      have hperm := insSort_perm (posLe posOf) r.2
      have hsortpw := insSort_pairwise (posLe posOf) (posLe_trans posOf)
        (posLe_total posOf) r.2
      have hB0nd : (insSort (posLe posOf) r.2).Nodup := hperm.nodup_iff.mpr hchar.1
      have hB0mem : ∀ x, x ∈ insSort (posLe posOf) r.2 ↔
          (x ∈ allowed ∧ Relation.ReflTransGen (SRel related allowed) start x) := by
        intro x
        rw [hperm.mem_iff]
        exact hchar.2.1 x
      have hB0alw : ∀ x ∈ insSort (posLe posOf) r.2, x ∈ allowed :=
        fun x hx => ((hB0mem x).mp hx).1
      have hB0lt : (insSort (posLe posOf) r.2).Pairwise
          (fun a b => posOf a < posOf b) :=
        pairwise_posLt_of_sorted posOf _ hsortpw hB0nd
          (fun a ha b hb => hposinj a (hB0alw a ha) b (hB0alw b hb))
      have hhead0 : (insSort (posLe posOf) r.2).headD 0 = start :=
        insSort_posLe_head posOf r.2 start hstartr hmin
      have hr1sub : r.1 ⊆ allowed := by
        rw [hchar.2.2]
        intro x hx
        rcases Finset.mem_union.mp hx with h | h
        · exact hvsub h
        · exact ((hchar.2.1 x).mp (List.mem_toFinset.mp h)).1
      have hr1closed : ∀ v ∈ r.1, ∀ y, y ∈ related v → y ∈ allowed → y ∈ r.1 := by
        intro v hv y hy hya
        rw [hchar.2.2] at hv ⊢
        rcases Finset.mem_union.mp hv with h | h
        · exact Finset.mem_union_left _ (hvclosed v h y hy hya)
        · rcases (hchar.2.1 v).mp (List.mem_toFinset.mp h) with ⟨hva, hvc⟩
          refine Finset.mem_union_right _ (List.mem_toFinset.mpr
            ((hchar.2.1 y).mpr ⟨hya, hvc.tail ⟨hy, hva, hya⟩⟩))
      have hcover2 : ∀ x ∈ allowed, x ∉ r.1 → x ∈ rest := by
        intro x hxa hxr
        have hxv : x ∉ visited := by
          intro hc
          exact hxr (by rw [hchar.2.2]; exact Finset.mem_union_left _ hc)
        rcases List.mem_cons.mp (hcover x hxa hxv) with rfl | hx
        · exact absurd (by
            rw [hchar.2.2]
            exact Finset.mem_union_right _ (List.mem_toFinset.mpr hstartr)) hxr
        · exact hx
      rcases ih r.1 (grouped ++ insSort (posLe posOf) r.2)
        (fun x hx => hstarts x (List.mem_cons_of_mem start hx))
        hr1sub hr1closed hcover2 hpwrest with ⟨blocks, heq, hblocks, hheads, hbpw⟩
      refine ⟨insSort (posLe posOf) r.2 :: blocks, ?_, ?_, ?_, ?_⟩
      · rw [heq, List.flatten_cons, List.append_assoc]
      · intro B hB
        rcases List.mem_cons.mp hB with rfl | hB
        · refine ⟨?_, hB0nd, hB0alw, ?_, ?_, hB0lt⟩
          · intro hc
            rw [hc] at hB0mem
            have := (hB0mem start).mpr ⟨hstartA, Relation.ReflTransGen.refl⟩
            simp at this
          · intro x hx y hy
            exact (hCsym start x ((hB0mem x).mp hx).2).trans ((hB0mem y).mp hy).2
          · intro x hx y hya hxy
            exact (hB0mem y).mpr ⟨hya, (((hB0mem x).mp hx).2).trans hxy⟩
        · exact hblocks B hB
      · intro B hB
        rcases List.mem_cons.mp hB with rfl | hB
        · rw [hhead0]; exact List.mem_cons_self _ _
        · exact List.mem_cons_of_mem start (hheads B hB)
      · refine List.pairwise_cons.mpr ⟨?_, hbpw⟩
        intro C hC
        rw [hhead0]
        exact hpwhead (C.headD 0) (hheads C hC)

theorem contentOf_out (files : List FileContent) (i : Nat)
    (h : files.length ≤ i) : contentOf files i = "" := by
  rw [contentOf, List.getD_eq_default _ _ h]

theorem deps_out (files : List FileContent) (idx : Nat)
    (h : files.length ≤ idx) : deps files idx = ∅ := by
  ext d
  simp only [deps, Finset.mem_filter, Finset.not_mem_empty, iff_false, not_and]
  intro _ _
  rw [contentOf_out files idx h]
  rintro ⟨spec, hspec, _⟩
  revert hspec
  show spec ∉ extract_module_specifiers ""
  have : extract_module_specifiers "" = ∅ := rfl
  rw [this]
  exact Finset.not_mem_empty spec

theorem relatedAdj_symm (files : List FileContent) (i j : Nat)
    (h : i ∈ relatedAdj files j) : j ∈ relatedAdj files i := by
  rcases Finset.mem_filter.mp h with ⟨hir, hd⟩
  refine Finset.mem_filter.mpr ⟨?_, Or.symm hd⟩
  rcases hd with h1 | h1
  · by_contra hj
    rw [Finset.mem_range, not_lt] at hj
    rw [deps_out files j hj] at h1
    exact Finset.not_mem_empty i h1
  · exact Finset.mem_range.mpr (deps_lt files h1)

theorem canonicalEnum_valid (files : List FileContent) (i x : Nat) :
    x ∈ canonicalEnum files i ↔ x ∈ relatedAdj files i := by
  rw [canonicalEnum, List.mem_filter]
  constructor
  · rintro ⟨_, h2⟩
    exact of_decide_eq_true h2
  · intro h
    refine ⟨?_, decide_eq_true h⟩
    rcases Finset.mem_filter.mp h with ⟨hr, _⟩
    exact List.mem_range.mpr (Finset.mem_range.mp hr)

theorem pairwise_indexOf_lt (l : List Nat) (hnd : l.Nodup) :
    l.Pairwise (fun a b => l.indexOf a < l.indexOf b) := by
  induction l with
  | nil => simp
  | cons x t ih =>
    rcases List.nodup_cons.mp hnd with ⟨hx, hndt⟩
    refine List.pairwise_cons.mpr ⟨?_, ?_⟩
    · intro b hb
      have hbx : b ≠ x := fun hc => hx (hc ▸ hb)
      rw [List.indexOf_cons_self, List.indexOf_cons_ne _ (fun hc => hbx hc.symm)]
      omega
    · refine List.Pairwise.imp_of_mem ?_ (ih hndt)
      intro a b ha hb hab
      have hax : a ≠ x := fun hc => hx (hc ▸ ha)
      have hbx : b ≠ x := fun hc => hx (hc ▸ hb)
      rw [List.indexOf_cons_ne _ (fun hc => hax hc.symm),
        List.indexOf_cons_ne _ (fun hc => hbx hc.symm)]
      omega

theorem pairwise_positionOf_lt (l : List Nat) (hnd : l.Nodup) :
    l.Pairwise (fun a b => positionOf l a < positionOf l b) := by
  refine List.Pairwise.imp_of_mem ?_ (pairwise_indexOf_lt l hnd)
  intro a b ha hb hab
  rw [positionOf_eq_indexOf l hnd a ha, positionOf_eq_indexOf l hnd b hb]
  exact hab

theorem headD_mem_self (B : List Nat) (h : B ≠ []) : B.headD 0 ∈ B := by
  cases B with
  | nil => exact absurd rfl h
  | cons b bs => simp

theorem eq_of_perm_of_pairwise_lt (posOf : Nat → Nat) (l₁ l₂ : List Nat)
    (hp : l₁.Perm l₂)
    (h₁ : l₁.Pairwise (fun a b => posOf a < posOf b))
    (h₂ : l₂.Pairwise (fun a b => posOf a < posOf b)) : l₁ = l₂ := by
  haveI : IsAntisymm Nat (fun a b => posOf a < posOf b) := by
    refine ⟨?_⟩
    intro a b hab hba
    omega
  exact List.eq_of_perm_of_sorted hp h₁ h₂

theorem groupLoop_enum_eq (enum₁ enum₂ : Nat → List Nat) (related : Nat → Finset Nat)
    (allowed : Finset Nat) (posOf : Nat → Nat)
    (hvalid₁ : ∀ i, i ∈ allowed → ∀ x, x ∈ enum₁ i ↔ x ∈ related i)
    (hvalid₂ : ∀ i, i ∈ allowed → ∀ x, x ∈ enum₂ i ↔ x ∈ related i)
    (hsym : ∀ i j, i ∈ related j → j ∈ related i)
    (hposinj : ∀ a ∈ allowed, ∀ b ∈ allowed, posOf a = posOf b → a = b) :
    ∀ (starts : List Nat) (visited : Finset Nat) (grouped : List Nat),
      (∀ x ∈ starts, x ∈ allowed) →
      visited ⊆ allowed →
      (∀ v ∈ visited, ∀ y, y ∈ related v → y ∈ allowed → y ∈ visited) →
      groupLoop enum₁ allowed posOf starts visited grouped
        = groupLoop enum₂ allowed posOf starts visited grouped := by
  intro starts
  induction starts with
  | nil => intro visited grouped _ _ _; rfl
  | cons start rest ih =>
    intro visited grouped hstarts hvsub hvclosed
    have hstartA : start ∈ allowed := hstarts start (List.mem_cons_self start rest)
    by_cases hvis : start ∈ visited
    · rw [groupLoop, if_pos hvis, groupLoop, if_pos hvis]
      exact ih visited grouped (fun x hx => hstarts x (List.mem_cons_of_mem start hx))
        hvsub hvclosed
    · rw [groupLoop, if_neg hvis, groupLoop, if_neg hvis]
      have hchar₁ := dfs_component_char enum₁ related allowed hvalid₁ hsym start
        visited hstartA hvis hvclosed hvsub
      have hchar₂ := dfs_component_char enum₂ related allowed hvalid₂ hsym start
        visited hstartA hvis hvclosed hvsub
      set r₁ := dfsLoop enum₁ allowed (allowed.card + 1) [start]
        (insert start visited) [start] with hr₁
      set r₂ := dfsLoop enum₂ allowed (allowed.card + 1) [start]
        (insert start visited) [start] with hr₂
      have hset : r₁.2.toFinset = r₂.2.toFinset := by
        ext x
        rw [List.mem_toFinset, List.mem_toFinset, hchar₁.2.1 x, hchar₂.2.1 x]
      have hperm : r₁.2.Perm r₂.2 :=
        List.perm_of_nodup_nodup_toFinset_eq hchar₁.1 hchar₂.1 hset
      have hvis1eq : r₁.1 = r₂.1 := by rw [hchar₁.2.2, hchar₂.2.2, hset]
      have halw₁ : ∀ x ∈ r₁.2, x ∈ allowed := fun x hx => ((hchar₁.2.1 x).mp hx).1
      have halw₂ : ∀ x ∈ r₂.2, x ∈ allowed := fun x hx => ((hchar₂.2.1 x).mp hx).1
      have hsort : insSort (posLe posOf) r₁.2 = insSort (posLe posOf) r₂.2 := by
        refine eq_of_perm_of_pairwise_lt posOf _ _
          (((insSort_perm _ r₁.2).trans hperm).trans (insSort_perm _ r₂.2).symm)
          ?_ ?_
        · refine pairwise_posLt_of_sorted posOf _
            (insSort_pairwise _ (posLe_trans posOf) (posLe_total posOf) r₁.2)
            ((insSort_perm _ _).nodup_iff.mpr hchar₁.1) ?_
          intro a ha b hb
          exact hposinj a (halw₁ a ((insSort_perm _ _).mem_iff.mp ha))
            b (halw₁ b ((insSort_perm _ _).mem_iff.mp hb))
        · refine pairwise_posLt_of_sorted posOf _
            (insSort_pairwise _ (posLe_trans posOf) (posLe_total posOf) r₂.2)
            ((insSort_perm _ _).nodup_iff.mpr hchar₂.1) ?_
          intro a ha b hb
          exact hposinj a (halw₂ a ((insSort_perm _ _).mem_iff.mp ha))
            b (halw₂ b ((insSort_perm _ _).mem_iff.mp hb))
      show groupLoop enum₁ allowed posOf rest r₁.1
          (grouped ++ insSort (posLe posOf) r₁.2)
        = groupLoop enum₂ allowed posOf rest r₂.1
          (grouped ++ insSort (posLe posOf) r₂.2)
      rw [← hvis1eq, ← hsort]
      have hr1sub : r₁.1 ⊆ allowed := by
        rw [hchar₁.2.2]
        intro x hx
        rcases Finset.mem_union.mp hx with h | h
        · exact hvsub h
        · exact halw₁ x (List.mem_toFinset.mp h)
      have hr1closed : ∀ v ∈ r₁.1, ∀ y, y ∈ related v → y ∈ allowed → y ∈ r₁.1 := by
        intro v hv y hy hya
        rw [hchar₁.2.2] at hv ⊢
        rcases Finset.mem_union.mp hv with h | h
        · exact Finset.mem_union_left _ (hvclosed v h y hy hya)
        · rcases (hchar₁.2.1 v).mp (List.mem_toFinset.mp h) with ⟨hva, hvc⟩
          exact Finset.mem_union_right _ (List.mem_toFinset.mpr
            ((hchar₁.2.1 y).mpr ⟨hya, hvc.tail ⟨hy, hva, hya⟩⟩))
      exact ih r₁.1 (grouped ++ insSort (posLe posOf) r₁.2)
        (fun x hx => hstarts x (List.mem_cons_of_mem start hx)) hr1sub hr1closed

theorem group_enum_eq (enum₁ enum₂ : Nat → List Nat) (files : List FileContent)
    (code_order : List Nat) (hnd : code_order.Nodup)
    (h₁ : ∀ i x, x ∈ enum₁ i ↔ x ∈ relatedAdj files i)
    (h₂ : ∀ i x, x ∈ enum₂ i ↔ x ∈ relatedAdj files i) :
    group_code_by_related_components_enum enum₁ code_order
      = group_code_by_related_components_enum enum₂ code_order := by
  by_cases hlen : code_order.length ≤ 1
  · rw [group_code_by_related_components_enum, if_pos hlen,
      group_code_by_related_components_enum, if_pos hlen]
  · rw [group_code_by_related_components_enum, if_neg hlen,
      group_code_by_related_components_enum, if_neg hlen]
    exact groupLoop_enum_eq enum₁ enum₂ (relatedAdj files) code_order.toFinset
      (positionOf code_order)
      (fun i _ x => h₁ i x) (fun i _ x => h₂ i x)
      (fun i j h => relatedAdj_symm files i j h)
      (fun a ha b hb hab => positionOf_inj code_order hnd a b
        (List.mem_toFinset.mp ha) (List.mem_toFinset.mp hb) hab)
      code_order ∅ []
      (fun x hx => List.mem_toFinset.mpr hx)
      (Finset.empty_subset _)
      (by intro v hv; simp at hv)

/-! ## Claim C3 -/

/-- C3, counterexample: with files of weights 1 and 100 and requested pack
count 2 (= file count), `distribute_files` returns a single pack holding both
files, not two singleton packs — the boundary `ceil(101/2) = 51` is never
reached before the last file, so the claim fails for arbitrary weights. -/
theorem claim_C3_counterexample :
    distribute_files [0, 1] 2 (fun i => [1, 100].getD i 0) = [[0, 1]] ∧
    distribute_files [0, 1] 2 (fun i => [1, 100].getD i 0) ≠
      [0, 1].map (fun i => [i]) := by
  constructor <;> decide

/-- C3, amended: for every sequence of N ≥ 1 files with EQUAL token weights
and every requested pack count ≥ N, distribution returns exactly N packs,
each containing exactly one file, in the original order.  (The unamended
claim, for arbitrary weights, is refuted by `claim_C3_counterexample`.) -/
theorem claim_C3 (xs : List Nat) (k : Nat) (w : Nat → Nat) (c : Nat)
    (hne : xs ≠ []) (hk : xs.length ≤ k) (hw : ∀ i ∈ xs, w i = c) :
    distribute_files xs k w = xs.map (fun i => [i]) :=
  distribute_files_singletons xs k w c hne hk hw

theorem claim_C3_witness :
    distribute_files [5, 7] 3 (fun _ => 2) = [[5], [7]] := by
  have h := claim_C3 [5, 7] 3 (fun _ => 2) 2 (by decide) (by decide) (fun i _ => rfl)
  simpa using h

/-! ## Claim C9 -/

/-- C9: the resolver rejects empty specifiers and `http://`/`https://`/`node:`
prefixes for every known-path map; `@/lib/utils` resolves to `src/lib/utils.ts`
(index 0) from `src/App.tsx`; `react` with no matching known path is
unresolved. -/
theorem claim_C9 :
    (∀ (specifier current_path : String) (m : String → Option Nat),
      specifier = "" ∨ strStartsWith specifier "http://" = true
        ∨ strStartsWith specifier "https://" = true ∨ strStartsWith specifier "node:" = true →
      resolve_module_specifier specifier current_path m = none) ∧
    resolve_module_specifier "@/lib/utils" "src/App.tsx"
      (path_to_idx ["src/lib/utils.ts"]) = some 0 ∧
    resolve_module_specifier "react" "src/App.tsx" (path_to_idx []) = none := by
  refine ⟨?_, by decide, by decide⟩
  intro specifier current_path m h
  have hc : (specifier = "" || strStartsWith specifier "http://"
      || strStartsWith specifier "https://" || strStartsWith specifier "node:") = true := by
    rcases h with h | h | h | h <;> simp [h]
  simp only [resolve_module_specifier, hc, if_true]

theorem claim_C9_witness :
    resolve_module_specifier "node:path" "src/App.tsx" (path_to_idx []) = none :=
  claim_C9.1 "node:path" "src/App.tsx" (path_to_idx [])
    (Or.inr (Or.inr (Or.inr (by decide))))

/-! ## Claim C7 -/

/-- Modelled from the spec: the data model (spec section 3) admits either
directory-separator convention, so the basename of a path is the part after
the last separator of either kind (here lower-cased, as the claim compares
case-insensitively).  This definition follows the spec wording and exists to
compare against the code's `file_basename`, which only treats '/' as a
separator. -/
def specBasename (path : String) : String :=
  asciiLower ((((splitPred (fun c => c = '/') (replaceCharStr path '\x5c' "/").data []).map
    (fun l => (⟨l⟩ : String))).getLast?).getD path)

/-- C7, counterexample: under the backslash convention the code's basename of
`docs\readme.md` is the whole path (POSIX `Path::file_name` does not split on
backslashes), so this README file lands in bucket 2 while `overview.md` lands
in bucket 1, and the README sorts last among the documentation files, even
though its basename in the spec's separator-agnostic sense starts with
`readme`. -/
theorem claim_C7_counterexample :
    strStartsWith (specBasename "docs\x5creadme.md") "readme" = true ∧
    strStartsWith (specBasename "overview.md") "readme" = false ∧
    (split_docs_and_code [0, 1]
      [⟨"overview.md", "", none⟩, ⟨"docs\x5creadme.md", "", none⟩]).1 = [0, 1] := by
  refine ⟨by decide, by decide, by decide⟩

theorem doc_priority_fst_eq_zero_iff (p : String) :
    (doc_priority p).1 = 0 ↔ strStartsWith (file_basename p) "readme" = true := by
  constructor
  · intro h0
    by_contra hns
    have hns2 : strStartsWith (file_basename p) "readme" = false := by
      cases hh : strStartsWith (file_basename p) "readme" with
      | true => exact absurd hh hns
      | false => rfl
    simp only [doc_priority, hns2] at h0
    split at h0
    · rename_i hq
      simp at hq
    · split at h0
      · simp at h0
      · split at h0 <;> simp at h0
  · intro hr
    simp [doc_priority, hr]

/-- C7, amended: every documentation file whose basename — as computed by the
code's file-name rule, i.e. the final '/'-separated component, with
backslashes not treated as separators — starts with `readme`
(case-insensitively) sorts before every documentation file whose basename
does not, in the reordered documentation subsequence.  (For forward-slash
paths this is the spec's basename; for backslash paths the claim fails, see
`claim_C7_counterexample`.) -/
theorem claim_C7 (ordered : List Nat) (files : List FileContent) (i j : Nat)
    (hi : i < ((split_docs_and_code ordered files).1).length)
    (hj : j < ((split_docs_and_code ordered files).1).length)
    (hread : strStartsWith (file_basename (pathOfIdx files
      (((split_docs_and_code ordered files).1).get ⟨i, hi⟩))) "readme" = true)
    (hnot : strStartsWith (file_basename (pathOfIdx files
      (((split_docs_and_code ordered files).1).get ⟨j, hj⟩))) "readme" = false) :
    i < j := by
  set docs := (split_docs_and_code ordered files).1 with hdocs
  have hpair : List.Pairwise (fun a b =>
      docKeyLe (doc_priority (pathOfIdx files a)) (doc_priority (pathOfIdx files b)) = true)
      docs := by
    rw [hdocs]
    simp only [split_docs_and_code]
    exact insSort_pairwise
      (fun a b => docKeyLe (doc_priority (pathOfIdx files a)) (doc_priority (pathOfIdx files b)))
      (fun a b c hab hbc => docKeyLe_trans _ _ _ hab hbc)
      (fun a b => docKeyLe_total _ _) _
  by_contra hcon
  push_neg at hcon
  rcases Nat.lt_or_ge j i with hji | hij
  · have hle := (List.pairwise_iff_get.mp hpair) ⟨j, hj⟩ ⟨i, hi⟩ hji
    have hzi : (doc_priority (pathOfIdx files (docs.get ⟨i, hi⟩))).1 = 0 :=
      (doc_priority_fst_eq_zero_iff _).mpr hread
    have hzj : (doc_priority (pathOfIdx files (docs.get ⟨j, hj⟩))).1 ≠ 0 := by
      intro h0
      rw [(doc_priority_fst_eq_zero_iff _).mp h0] at hnot
      simp at hnot
    simp only [docKeyLe, Bool.or_eq_true, Bool.and_eq_true, decide_eq_true_eq] at hle
    rcases hle with hlt | ⟨heq, _⟩
    · omega
    · exact hzj (heq.trans hzi)
  · have : i = j := by omega
    subst this
    rw [hread] at hnot
    simp at hnot

theorem claim_C7_witness :
    ((split_docs_and_code [0, 1]
      [⟨"readme.md", "", none⟩, ⟨"guide.md", "", none⟩]).1).length = 2 ∧ (0 : Nat) < 1 := by
  refine ⟨by decide, ?_⟩
  exact claim_C7 [0, 1] [⟨"readme.md", "", none⟩, ⟨"guide.md", "", none⟩] 0 1
    (by decide) (by decide) (by decide) (by decide)

/-! ## Claim C6 -/

/-- C6: the grouped code sequence is a concatenation of blocks such that each
block is exactly one connected component of the related adjacency restricted
to the code subsequence (mutually connected and closed under connectivity, so
in particular any two code files joined by a resolvable reference land in the
same block, i.e. contiguously), within each block members appear in their
relative order from the incoming sequence, each block is led by its earliest
member, and blocks are emitted in the order of their earliest member's
position in the incoming sequence. -/
theorem claim_C6 (files : List FileContent) (code_order : List Nat)
    (hnd : code_order.Nodup) :
    ∃ blocks : List (List Nat),
      group_code_by_related_components code_order files = blocks.flatten ∧
      (∀ B ∈ blocks, B ≠ [] ∧
        (∀ x ∈ B, x ∈ code_order) ∧
        (∀ x ∈ B, ∀ y ∈ B,
          Relation.ReflTransGen (SRel (relatedAdj files) code_order.toFinset) x y) ∧
        (∀ x ∈ B, ∀ y ∈ code_order,
          Relation.ReflTransGen (SRel (relatedAdj files) code_order.toFinset) x y →
            y ∈ B) ∧
        B.Pairwise (fun a b => code_order.indexOf a < code_order.indexOf b) ∧
        (∀ x ∈ B, code_order.indexOf (B.headD 0) ≤ code_order.indexOf x)) ∧
      blocks.Pairwise (fun B C =>
        code_order.indexOf (B.headD 0) < code_order.indexOf (C.headD 0)) := by
  by_cases hlen : code_order.length ≤ 1
  · cases code_order with
    | nil =>
      refine ⟨[], ?_, by simp, by simp⟩
      simp [group_code_by_related_components, group_code_by_related_components_enum]
    | cons x t =>
      cases t with
      | nil =>
        refine ⟨[[x]], ?_, ?_, by simp⟩
        · simp [group_code_by_related_components, group_code_by_related_components_enum]
        · intro B hB
          simp only [List.mem_singleton] at hB
          subst hB
          refine ⟨by simp, by simp, ?_, ?_, by simp, by simp⟩
          · intro a ha b hb
            simp only [List.mem_singleton] at ha hb
            subst ha; subst hb
            exact Relation.ReflTransGen.refl
          · intro a ha y hy _
            simp only [List.mem_singleton] at hy ⊢
            exact hy
      | cons y t2 => simp at hlen
  · have hlen2 : ¬ code_order.length ≤ 1 := hlen
    have hcanon := groupLoop_canonical (canonicalEnum files) (relatedAdj files)
      code_order.toFinset (positionOf code_order)
      (fun i _ x => canonicalEnum_valid files i x)
      (fun i j h => relatedAdj_symm files i j h)
      (fun a ha b hb hab => positionOf_inj code_order hnd a b
        (List.mem_toFinset.mp ha) (List.mem_toFinset.mp hb) hab)
      code_order ∅ []
      (fun x hx => List.mem_toFinset.mpr hx)
      (Finset.empty_subset _)
      (by intro v hv; simp at hv)
      (fun x hx _ => List.mem_toFinset.mp hx)
      (pairwise_positionOf_lt code_order hnd)
    rcases hcanon with ⟨blocks, heq, hblocks, _, hbpw⟩
    have hmemco : ∀ B ∈ blocks, ∀ x ∈ B, x ∈ code_order := by
      intro B hB x hx
      exact List.mem_toFinset.mp ((hblocks B hB).2.2.1 x hx)
    refine ⟨blocks, ?_, ?_, ?_⟩
    · rw [group_code_by_related_components, group_code_by_related_components_enum,
        if_neg hlen2, heq, List.nil_append]
    · intro B hB
      rcases hblocks B hB with ⟨hne, hndB, halw, hmut, hclosed, hpwB⟩
      have hmem : ∀ x ∈ B, x ∈ code_order := hmemco B hB
      refine ⟨hne, hmem, hmut, ?_, ?_, ?_⟩
      · intro x hx y hy hconn
        exact hclosed x hx y (List.mem_toFinset.mpr hy) hconn
      · refine List.Pairwise.imp_of_mem ?_ hpwB
        intro a b ha hb hab
        rw [positionOf_eq_indexOf code_order hnd a (hmem a ha),
          positionOf_eq_indexOf code_order hnd b (hmem b hb)] at hab
        exact hab
      · intro x hx
        have h := head_le_of_pairwise_lt (positionOf code_order) B hpwB x hx
        rw [positionOf_eq_indexOf code_order hnd _
            (hmem _ (headD_mem_self B hne)),
          positionOf_eq_indexOf code_order hnd x (hmem x hx)] at h
        exact h
    · refine List.Pairwise.imp_of_mem ?_ hbpw
      intro B C hB hC hlt
      rw [positionOf_eq_indexOf code_order hnd _
          (hmemco B hB _ (headD_mem_self B (hblocks B hB).1)),
        positionOf_eq_indexOf code_order hnd _
          (hmemco C hC _ (headD_mem_self C (hblocks C hC).1))] at hlt
      exact hlt

/-- C6 witness: at two concrete related code files with a third unrelated one. -/
theorem claim_C6_witness :
    ∃ blocks : List (List Nat),
      group_code_by_related_components [0, 1, 2]
          [⟨"a.ts", "import x from \x27./b\x27", none⟩,
           ⟨"b.ts", "", none⟩, ⟨"c.ts", "", none⟩] = blocks.flatten ∧
      (∀ B ∈ blocks, B ≠ [] ∧
        (∀ x ∈ B, x ∈ [0, 1, 2]) ∧
        (∀ x ∈ B, ∀ y ∈ B,
          Relation.ReflTransGen (SRel (relatedAdj
            [⟨"a.ts", "import x from \x27./b\x27", none⟩,
             ⟨"b.ts", "", none⟩, ⟨"c.ts", "", none⟩])
            ([0, 1, 2] : List Nat).toFinset) x y) ∧
        (∀ x ∈ B, ∀ y ∈ [0, 1, 2],
          Relation.ReflTransGen (SRel (relatedAdj
            [⟨"a.ts", "import x from \x27./b\x27", none⟩,
             ⟨"b.ts", "", none⟩, ⟨"c.ts", "", none⟩])
            ([0, 1, 2] : List Nat).toFinset) x y →
            y ∈ B) ∧
        B.Pairwise (fun a b =>
          ([0, 1, 2] : List Nat).indexOf a < ([0, 1, 2] : List Nat).indexOf b) ∧
        (∀ x ∈ B, ([0, 1, 2] : List Nat).indexOf (B.headD 0)
          ≤ ([0, 1, 2] : List Nat).indexOf x)) ∧
      blocks.Pairwise (fun B C =>
        ([0, 1, 2] : List Nat).indexOf (B.headD 0)
          < ([0, 1, 2] : List Nat).indexOf (C.headD 0)) :=
  claim_C6 [⟨"a.ts", "import x from \x27./b\x27", none⟩,
    ⟨"b.ts", "", none⟩, ⟨"c.ts", "", none⟩] [0, 1, 2] (by decide)

/-! ## Claim C10 -/

/-- C10: `pack_files` is deterministic — the response is a pure function of the
request and, in particular, independent of the iteration order of the hash
adjacency sets: any two neighbour enumerations realising the same related
adjacency produce identical responses. -/
theorem claim_C10 (request : PackRequest) (enum₁ enum₂ : Nat → List Nat)
    (h₁ : ∀ i x, x ∈ enum₁ i ↔ x ∈ relatedAdj request.files i)
    (h₂ : ∀ i x, x ∈ enum₂ i ↔ x ∈ relatedAdj request.files i) :
    pack_files_enum enum₁ request = pack_files_enum enum₂ request := by
  have hndo : (compute_dependency_order request.files).Nodup :=
    (compute_dependency_order_perm request.files).nodup_iff.mpr (List.nodup_range _)
  have hnd2 : (split_docs_and_code (compute_dependency_order request.files)
      request.files).2.Nodup := by
    simp only [split_docs_and_code]
    exact hndo.filter _
  have hkey := group_enum_eq enum₁ enum₂ request.files _ hnd2 h₁ h₂
  simp only [pack_files_enum, hkey]

/-- C10 witness: the canonical enumeration and its reversal (two different
iteration orders of the same adjacency sets) give the same response on a
concrete two-file request. -/
theorem claim_C10_witness :
    pack_files_enum
        (canonicalEnum [⟨"a.ts", "import x from \x27./b\x27", none⟩,
          ⟨"b.ts", "", none⟩])
        ⟨[⟨"a.ts", "import x from \x27./b\x27", none⟩, ⟨"b.ts", "", none⟩],
          2, "plaintext"⟩
      = pack_files_enum
        (fun i => (canonicalEnum [⟨"a.ts", "import x from \x27./b\x27", none⟩,
          ⟨"b.ts", "", none⟩] i).reverse)
        ⟨[⟨"a.ts", "import x from \x27./b\x27", none⟩, ⟨"b.ts", "", none⟩],
          2, "plaintext"⟩ :=
  claim_C10 ⟨[⟨"a.ts", "import x from \x27./b\x27", none⟩, ⟨"b.ts", "", none⟩],
      2, "plaintext"⟩ _ _
    (fun i x => canonicalEnum_valid
      [⟨"a.ts", "import x from \x27./b\x27", none⟩, ⟨"b.ts", "", none⟩] i x)
    (fun i x => (List.mem_reverse).trans (canonicalEnum_valid
      [⟨"a.ts", "import x from \x27./b\x27", none⟩, ⟨"b.ts", "", none⟩] i x))

end Pack
